import Mathlib

/-!
Shallow embedding of the xmcs repository: a library computing an extended
set of maximal common subsequences (xMCS) of k sequences, represented as a
directed acyclic graph.  The embedding follows the Rust sources:
`src/substr.rs` (tail-subsequence oracle), `src/dag.rs` (data model,
extraction), `src/dag/xmcs2.rs` (pairwise builder) and `src/dag/xmcsk.rs`
(k-ary builder).  Machine integers (`usize`) are modelled as `Nat`;
fallible operations (Rust panics: failed `assert!`, arithmetic underflow,
out-of-bounds indexing, `todo!()`) are modelled with `Except BuildError`;
Rust's unbounded recursion is modelled with explicit fuel, with
`BuildError.outOfFuel` marking fuel exhaustion (which never occurs on the
executions the library performs; see the termination theorems).
-/

set_option maxRecDepth 4000

/-- Outcomes of a Rust execution that does not return normally: a panic
(failed assertion, arithmetic underflow, out-of-bounds index, `todo!()`),
or exhaustion of the fuel that models unbounded recursion. -/
inductive BuildError where
  | outOfFuel
  | panic
deriving DecidableEq, Repr

/-- From `src/substr.rs`: `const fn distance(a: usize, b: usize) -> usize`. -/
def distance (a b : Nat) : Nat :=
  if a > b then a - b else b - a

/-- From `src/substr.rs`: `struct SubString` (the generic parameter `T` only
appears in construction, the stored table is plain booleans). -/
structure SubString where
  d1 : Nat
  d2 : Nat
  delta : Nat
  table : Array Bool
deriving DecidableEq, Repr

/-- From `src/substr.rs`: `SubString::index_with(i, j, delta) = j + delta + i * 2 * delta`. -/
def SubString.index_with (i j delta : Nat) : Nat :=
  j + delta + i * 2 * delta

/-- Rust `s1[i] == s2[j]` on slices, with both indices in bounds on every
reachable read (out-of-bounds, which would panic in Rust, yields `false`). -/
def elemEq {T : Type} [DecidableEq T] (s1 s2 : List T) (i j : Nat) : Bool :=
  match s1.get? i, s2.get? j with
  | some a, some b => decide (a = b)
  | _, _ => false

/-- Body of the fill loop of `SubString::compute` (src/substr.rs lines
144-178): the value written into cell `(i, j)`, reading previously filled
cells of `res`.  `Ord::cmp(&end_i, &end_j)` is rendered as nested
comparisons. -/
def cellValue {T : Type} [DecidableEq T] (s1 s2 : List T) (d1 d2 delta : Nat)
    (res : Array Bool) (i j : Nat) : Bool :=
  let end_i := d1 - i - 1
  let end_j := d2 - j - 1
  if end_i = end_j then
    if end_i = 0 then
      elemEq s1 s2 i j
    else
      res.getD (SubString.index_with (i + 1) (j + 1) delta) false && elemEq s1 s2 i j
  else if end_i < end_j then
    if end_i = 0 then
      res.getD (SubString.index_with i (j + 1) delta) false || elemEq s1 s2 i j
    else
      res.getD (SubString.index_with i (j + 1) delta) false ||
        (res.getD (SubString.index_with (i + 1) (j + 1) delta) false && elemEq s1 s2 i j)
  else
    if end_j = 0 then
      res.getD (SubString.index_with (i + 1) j delta) false || elemEq s1 s2 i j
    else
      res.getD (SubString.index_with (i + 1) j delta) false ||
        (res.getD (SubString.index_with (i + 1) (j + 1) delta) false && elemEq s1 s2 i j)

/-- Inner loop `for j in (0..start).rev()` of `SubString::compute`: the
second argument counts the remaining iterations, so cells are processed
with `j` descending; `break` on leaving the diagonal band. -/
def fillRow {T : Type} [DecidableEq T] (s1 s2 : List T) (d1 d2 delta i : Nat) :
    Array Bool → Nat → Array Bool
  | res, 0 => res
  | res, j + 1 =>
      if distance i j > delta then res
      else
        fillRow s1 s2 d1 d2 delta i
          (res.setD (SubString.index_with i j delta) (cellValue s1 s2 d1 d2 delta res i j)) j

/-- Outer loop `for i in (0..d1).rev()` of `SubString::compute`; rows are
processed with `i` descending. -/
def fillRows {T : Type} [DecidableEq T] (s1 s2 : List T) (d1 d2 delta : Nat) :
    Array Bool → Nat → Array Bool
  | res, 0 => res
  | res, i + 1 =>
      let start := min (i + delta + 1) d2
      fillRows s1 s2 d1 d2 delta (fillRow s1 s2 d1 d2 delta i res start) i

/-- From `src/substr.rs`: `SubString::compute` (and `SubString::new`).
The `assert!(distance(d1, d2) <= delta)` is modelled as a panic. -/
def SubString.compute {T : Type} [DecidableEq T] (s1 s2 : List T) (delta : Nat) :
    Except BuildError SubString :=
  let d1 := s1.length
  let d2 := s2.length
  if distance d1 d2 > delta then .error .panic
  else
    let res := Array.mkArray (d1 * (2 * delta + 1)) false
    .ok { d1 := d1, d2 := d2, delta := delta, table := fillRows s1 s2 d1 d2 delta res d1 }

/-- From `src/substr.rs`: `SubString::is_substring_at`.  The three
`assert!`s (`i <= d1`, `j <= d2`, `distance(i, j) <= delta`) are modelled
as preconditions of the correctness theorem rather than as runtime
failures; every reachable call site satisfies them. -/
def SubString.is_substring_at (ss : SubString) (i j : Nat) : Bool :=
  if i = ss.d1 ∨ j = ss.d2 then true
  else ss.table.getD (SubString.index_with i j ss.delta) false

/-- From `src/substr.rs`: `SubString::is_substring_from_end`. -/
def SubString.is_substring_from_end (ss : SubString) (end_i end_j : Nat) : Bool :=
  ss.is_substring_at (ss.d1 - end_i) (ss.d2 - end_j)

/-- From `src/dag.rs`: `enum NodeType<'a, T>`; the borrowed slice
`&'a [T]` of an `End` node is modelled as a `List T`. -/
inductive NodeType (T : Type) where
  | Empty
  | End (suffix : List T)
  | Split (child1 child2 : Nat)
  | Element (value : T) (child : Nat)
deriving DecidableEq, Repr

/-- From `src/dag.rs`: `struct Node<'a, T>`. -/
structure Node (T : Type) where
  max_length : Nat
  min_length : Nat
  inner : NodeType T
deriving DecidableEq, Repr

/-- From `src/dag.rs`: `struct Dag<'a, T>`: node arena, start index,
minimum subsequence length. -/
structure Dag (T : Type) where
  nodes : List (Node T)
  start : Nat
  len : Nat
deriving DecidableEq, Repr

/-- The node pushed by `Dag::empty`, `Dag::singleton` and the builders
when the result set is empty. -/
def emptyNode (T : Type) : Node T :=
  { max_length := 0, min_length := 0, inner := NodeType.Empty }

/-- From `src/dag.rs`: `Dag::empty(len)`. -/
def Dag.empty (T : Type) (len : Nat) : Dag T :=
  { nodes := [emptyNode T], start := 0, len := len }

/-- From `src/dag.rs`: `Dag::singleton(len, seq)`. -/
def Dag.singleton {T : Type} (len : Nat) (seq : List T) : Dag T :=
  { nodes := [emptyNode T,
      { max_length := seq.length, min_length := seq.length,
        inner := NodeType.End seq }],
    start := 1, len := len }

/-- From `src/dag.rs`: `Node::with_base_index`: shift the children of a
node by `index` so that they stay valid after splicing. -/
def Node.with_base_index {T : Type} (n : Node T) (index : Nat) : Node T :=
  let node_type :=
    match n.inner with
    | NodeType.Element value child => NodeType.Element value (child + index)
    | NodeType.Split child1 child2 => NodeType.Split (child1 + index) (child2 + index)
    | node_type => node_type
  { max_length := n.max_length, min_length := n.min_length, inner := node_type }

/-- Modelled from the source: `Dag::to_set` (src/dag.rs lines 105-107) is
`todo!()`, i.e. it panics unconditionally; the declared `HashSet<T>` result
is modelled as a `List T` that is never produced. -/
def Dag.to_set {T : Type} (_ : Dag T) : Except BuildError (List T) :=
  .error .panic

/-- From `src/dag.rs`: `Dag::extract_lcs_impl`, with fuel (the Rust
recursion is unbounded); `none` models a non-returning execution, which
never happens on the DAGs the builders produce.  The `buffer` accumulates
pushed values like the Rust `&mut Vec<T>`. -/
def Dag.extract_lcs_impl {T : Type} (nodes : List (Node T)) :
    Nat → Node T → List T → Option (List T)
  | 0, _, _ => none
  | fuel + 1, current, buffer =>
      match current.inner with
      | NodeType.Empty => some buffer
      | NodeType.End suffix => some (buffer ++ suffix)
      | NodeType.Element value child =>
          match nodes.get? child with
          | none => none
          | some c => Dag.extract_lcs_impl nodes fuel c (buffer ++ [value])
      | NodeType.Split child1 child2 =>
          match nodes.get? child1, nodes.get? child2 with
          | some n1, some n2 =>
              if n1.max_length > n2.max_length then
                Dag.extract_lcs_impl nodes fuel n1 buffer
              else
                Dag.extract_lcs_impl nodes fuel n2 buffer
          | _, _ => none

/-- From `src/dag.rs`: `Dag::extract_lcs`. -/
def Dag.extract_lcs {T : Type} (d : Dag T) : Option (List T) :=
  match d.nodes.get? d.start with
  | none => none
  | some start =>
      if start.max_length = 0 then none
      else Dag.extract_lcs_impl d.nodes (d.nodes.length + 1) start []

/-- Memo lookup: the Rust `HashMap<Position, Option<usize>>` is modelled
as an association list with insertion at the front, so the first match is
the most recent insertion (matching `HashMap::insert` overwrite
semantics). -/
def memoFind (memo : List ((Nat × Nat × Nat) × Option Nat)) (pos : Nat × Nat × Nat) :
    Option (Option Nat) :=
  match memo with
  | [] => none
  | (k, v) :: rest => if k = pos then some v else memoFind rest pos

/-- From `src/dag/xmcs2.rs`: `struct Builder<'a, T>` (pairwise builder). -/
structure Builder2 (T : Type) where
  nodes : List (Node T)
  memo : List ((Nat × Nat × Nat) × Option Nat)

/-- From `src/dag/xmcs2.rs`: `Builder::insert_node_at`. -/
def Builder2.insert_node_at {T : Type} (b : Builder2 T) (position : Nat × Nat × Nat)
    (node : Node T) : Builder2 T × Option Nat :=
  let index := b.nodes.length
  ({ nodes := b.nodes ++ [node], memo := (position, some index) :: b.memo }, some index)

/-- From `src/dag/xmcs2.rs`: `Builder::points_to_node` (the
`assert!(index < self.nodes.len())` holds at every call site). -/
def Builder2.points_to_node {T : Type} (b : Builder2 T) (position : Nat × Nat × Nat)
    (index : Nat) : Builder2 T × Option Nat :=
  ({ nodes := b.nodes, memo := (position, some index) :: b.memo }, some index)

/-- From `src/dag/xmcs2.rs`: `Builder::insert_empty_at`. -/
def Builder2.insert_empty_at {T : Type} (b : Builder2 T) (position : Nat × Nat × Nat) :
    Builder2 T × Option Nat :=
  ({ nodes := b.nodes, memo := (position, none) :: b.memo }, none)

/-- From `src/dag/xmcs2.rs`: `Builder::compute_subseq_node`. -/
def Builder2.compute_subseq_node {T : Type} (b : Builder2 T) (s1 : List T) (l1 : Nat)
    (s2 : List T) (l2 : Nat) (position : Nat × Nat × Nat) : Builder2 T × Option Nat :=
  let p := if l1 < l2 then (l1, s1) else (l2, s2)
  b.insert_node_at position
    { max_length := p.1, min_length := p.1, inner := NodeType.End p.2 }

/-- From `src/dag/xmcs2.rs`: `Builder::compute_common_element_node`. -/
def Builder2.compute_common_element_node {T : Type} (b : Builder2 T) (element : T)
    (index : Option Nat) (position : Nat × Nat × Nat) : Builder2 T × Option Nat :=
  match index with
  | none => b.insert_empty_at position
  | some i =>
      let node := (b.nodes.get? i).getD (emptyNode T)
      b.insert_node_at position
        { max_length := node.max_length + 1, min_length := node.min_length + 1,
          inner := NodeType.Element element i }

/-- From `src/dag/xmcs2.rs`: `Builder::compute_split_node`. -/
def Builder2.compute_split_node {T : Type} (b : Builder2 T) (index1 index2 : Option Nat)
    (position : Nat × Nat × Nat) : Builder2 T × Option Nat :=
  match index1, index2 with
  | none, none => b.insert_empty_at position
  | none, some i => b.points_to_node position i
  | some i, none => b.points_to_node position i
  | some i1, some i2 =>
      let node1 := (b.nodes.get? i1).getD (emptyNode T)
      let node2 := (b.nodes.get? i2).getD (emptyNode T)
      b.insert_node_at position
        { max_length := max node1.max_length node2.max_length,
          min_length := min node1.min_length node2.min_length,
          inner := NodeType.Split i1 i2 }

/-- From `src/dag/xmcs2.rs`: `Builder::compute`, with fuel modelling the
Rust recursion (the suffix lengths decrease, so `s1.length + s2.length + 1`
fuel always suffices; see the termination theorem).  The final wildcard
arm is unreachable: when either sequence is empty the oracle query returns
`true`, so the head accesses `s1[0]`, `s2[0]` never panic. -/
def Builder2.compute {T : Type} [DecidableEq T] (substr : SubString) :
    Builder2 T → Nat → Nat → List T → List T → Except BuildError (Builder2 T × Option Nat)
  | _, 0, _, _, _ => .error .outOfFuel
  | b, fuel + 1, len, s1, s2 =>
      let l1 := s1.length
      let l2 := s2.length
      let pos := (len, l1, l2)
      match memoFind b.memo pos with
      | some index => .ok (b, index)
      | none =>
          if len > l1 ∨ len > l2 then
            .ok (b.insert_empty_at pos)
          else if substr.is_substring_from_end l1 l2 then
            .ok (b.compute_subseq_node s1 l1 s2 l2 pos)
          else
            match s1, s2 with
            | a :: t1, c :: t2 =>
                if a = c then
                  match Builder2.compute substr b fuel (len - 1) t1 t2 with
                  | .error e => .error e
                  | .ok (b', index) => .ok (b'.compute_common_element_node a index pos)
                else
                  match Builder2.compute substr b fuel len t1 s2 with
                  | .error e => .error e
                  | .ok (b', index1) =>
                      match Builder2.compute substr b' fuel len s1 t2 with
                      | .error e => .error e
                      | .ok (b'', index2) => .ok (b''.compute_split_node index1 index2 pos)
            | _, _ => .error .panic

/-- From `src/dag/xmcs2.rs`: `Builder::build_raw` (also exported as
`xmcs2_raw`).  `delta = n - len` underflows (panics) when `len > n`; the
`SubString::new` assertion panics when `len` exceeds the shorter length. -/
def xmcs2_raw {T : Type} [DecidableEq T] (len : Nat) (s1 s2 : List T) :
    Except BuildError (List (Node T) × Option Nat) :=
  let n := max s1.length s2.length
  if len > n then .error .panic
  else
    let delta := n - len
    match SubString.compute s1 s2 delta with
    | .error e => .error e
    | .ok subseq =>
        match Builder2.compute subseq { nodes := [], memo := [] }
            (s1.length + s2.length + 1) len s1 s2 with
        | .error e => .error e
        | .ok (b, start) => .ok (b.nodes, start)

/-- From `src/dag/xmcs2.rs`: `Builder::build`, exported as `xmcs2`.  When
the start is `None` the Rust code asserts the arena is empty and pushes a
single `Empty` node. -/
def xmcs2 {T : Type} [DecidableEq T] (len : Nat) (s1 s2 : List T) :
    Except BuildError (Dag T) :=
  match xmcs2_raw len s1 s2 with
  | .error e => .error e
  | .ok (graph, start) =>
      match start with
      | some s => .ok { nodes := graph, start := s, len := len }
      | none =>
          if graph.length = 0 then
            .ok { nodes := graph ++ [emptyNode T], start := 0, len := len }
          else .error .panic

/-- From `src/dag/xmcsk.rs`: `struct Builder<'a, T>` (k-ary builder). -/
structure KBuilder (T : Type) where
  nodes : List (Node T)
  memo : List ((Nat × Nat × Nat) × Option Nat)
  base_graph : List (Node T)

/-- From `src/dag/xmcsk.rs`: `Builder::insert_node_at`. -/
def KBuilder.insert_node_at {T : Type} (b : KBuilder T) (position : Nat × Nat × Nat)
    (node : Node T) : KBuilder T × Option Nat :=
  let index := b.nodes.length
  ({ b with nodes := b.nodes ++ [node], memo := (position, some index) :: b.memo },
   some index)

/-- From `src/dag/xmcsk.rs`: `Builder::points_to_node`. -/
def KBuilder.points_to_node {T : Type} (b : KBuilder T) (position : Nat × Nat × Nat)
    (index : Nat) : KBuilder T × Option Nat :=
  ({ b with memo := (position, some index) :: b.memo }, some index)

/-- From `src/dag/xmcsk.rs`: `Builder::insert_empty_at`. -/
def KBuilder.insert_empty_at {T : Type} (b : KBuilder T) (position : Nat × Nat × Nat) :
    KBuilder T × Option Nat :=
  ({ b with memo := (position, none) :: b.memo }, none)

/-- From `src/dag/xmcsk.rs`: `Builder::insert_subgraph_at`: splice another
arena into `self`, shifting children by the pre-splice size.  Note the
Rust code memoizes the position only in the `None` branch. -/
def KBuilder.insert_subgraph_at {T : Type} (b : KBuilder T) (position : Nat × Nat × Nat)
    (other : List (Node T)) (start : Option Nat) : KBuilder T × Option Nat :=
  match start with
  | none => b.insert_empty_at position
  | some start =>
      let index := b.nodes.length
      ({ b with nodes := b.nodes ++ other.map (fun node => node.with_base_index index) },
       some (start + index))

/-- Modelled from the spec: `Node::is_split_with_child` is called at
src/dag/xmcsk.rs lines 234 and 237 but its definition is not in `src/`;
per the spec's prefix-sharing collapse rule it tests whether the node is
`a Split one of whose children is` the given index. -/
def Node.is_split_with_child {T : Type} (n : Node T) (idx : Nat) : Bool :=
  match n.inner with
  | NodeType.Split child1 child2 => child1 = idx ∨ child2 = idx
  | _ => false

/-- From `src/dag/xmcsk.rs`: `Builder::compute_split_node`, including the
identical-children collapse and the prefix-sharing collapse. -/
def KBuilder.compute_split_node {T : Type} (b : KBuilder T) (index1 index2 : Option Nat)
    (position : Nat × Nat × Nat) : KBuilder T × Option Nat :=
  match index1, index2 with
  | none, none => b.insert_empty_at position
  | some idx, none => b.points_to_node position idx
  | none, some idx => b.points_to_node position idx
  | some idx1, some idx2 =>
      if idx1 = idx2 then b.points_to_node position idx1
      else
        let node1 := (b.nodes.get? idx1).getD (emptyNode T)
        let node2 := (b.nodes.get? idx2).getD (emptyNode T)
        if node1.is_split_with_child idx2 then b.points_to_node position idx1
        else if node2.is_split_with_child idx1 then b.points_to_node position idx2
        else
          b.insert_node_at position
            { max_length := max node1.max_length node2.max_length,
              min_length := min node1.min_length node2.min_length,
              inner := NodeType.Split idx1 idx2 }

/-- From `src/dag/xmcsk.rs`: `Builder::compute_common_element_node`. -/
def KBuilder.compute_common_element_node {T : Type} (b : KBuilder T) (index : Option Nat)
    (element : T) (position : Nat × Nat × Nat) : KBuilder T × Option Nat :=
  match index with
  | none => b.insert_empty_at position
  | some idx =>
      let node := (b.nodes.get? idx).getD (emptyNode T)
      b.insert_node_at position
        { max_length := node.max_length + 1, min_length := node.min_length + 1,
          inner := NodeType.Element element idx }

/-- From `src/dag/xmcsk.rs`: `Builder::compute`, with fuel modelling the
Rust recursion (`self.base_graph[current]` out of bounds is a panic).
Memoization is keyed on `(len, arena[current].max_length, seq.len())`. -/
def KBuilder.compute {T : Type} [DecidableEq T] :
    KBuilder T → Nat → Nat → Nat → List T → Except BuildError (KBuilder T × Option Nat)
  | _, 0, _, _, _ => .error .outOfFuel
  | b, fuel + 1, len, current, seq =>
      match b.base_graph.get? current with
      | none => .error .panic
      | some node =>
          let l1 := node.max_length
          let l2 := seq.length
          let pos := (len, l1, l2)
          match memoFind b.memo pos with
          | some index => .ok (b, index)
          | none =>
              if len > l1 ∨ len > l2 then
                .ok (b.insert_empty_at pos)
              else
                match node.inner with
                | NodeType.Empty => .ok (b.insert_empty_at pos)
                | NodeType.End suffix =>
                    match xmcs2_raw len suffix seq with
                    | .error e => .error e
                    | .ok (subgraph, start) => .ok (b.insert_subgraph_at pos subgraph start)
                | NodeType.Split child1 child2 =>
                    match KBuilder.compute b fuel len child1 seq with
                    | .error e => .error e
                    | .ok (b', index1) =>
                        match KBuilder.compute b' fuel len child2 seq with
                        | .error e => .error e
                        | .ok (b'', index2) => .ok (b''.compute_split_node index1 index2 pos)
                | NodeType.Element value child =>
                    match seq with
                    | [] =>
                        if len = 0 then
                          .ok (b.insert_node_at pos
                            { max_length := 0, min_length := 0, inner := NodeType.End [] })
                        else .ok (b.insert_empty_at pos)
                    | s0 :: t =>
                        if value = s0 then
                          match KBuilder.compute b fuel (len - 1) child t with
                          | .error e => .error e
                          | .ok (b', index) =>
                              .ok (b'.compute_common_element_node index value pos)
                        else
                          match KBuilder.compute b fuel len current t with
                          | .error e => .error e
                          | .ok (b', index1) =>
                              match KBuilder.compute b' fuel len child seq with
                              | .error e => .error e
                              | .ok (b'', index2) =>
                                  .ok (b''.compute_split_node index1 index2 pos)

/-- From `src/dag/xmcsk.rs`: `Builder::add_sequence`.  The fuel
`sequence.length + start + 1` is sufficient whenever the base graph's
children indices decrease (which holds for every DAG the library builds).
When the start is `None` the Rust code asserts the new arena is empty and
pushes a single `Empty` node. -/
def add_sequence {T : Type} [DecidableEq T] (xmcs : Dag T) (sequence : List T) :
    Except BuildError (Dag T) :=
  let len := xmcs.len
  let start := xmcs.start
  let b : KBuilder T := { nodes := [], memo := [], base_graph := xmcs.nodes }
  match KBuilder.compute b (sequence.length + start + 1) len start sequence with
  | .error e => .error e
  | .ok (b', some s) => .ok { nodes := b'.nodes, start := s, len := len }
  | .ok (b', none) =>
      if b'.nodes.length = 0 then
        .ok { nodes := [emptyNode T], start := 0, len := len }
      else .error .panic

/-- Helper for `xmcsk`: the Rust slice pattern `&[ref seqs @ .., s]`
peels the last sequence, i.e. the head of the reversed list; recursing on
the reversed list makes the recursion structural. -/
def xmcskRev {T : Type} [DecidableEq T] (len : Nat) : List (List T) → Except BuildError (Dag T)
  | [] => .ok (Dag.empty T len)
  | [s] => .ok (Dag.singleton len s)
  | s :: s2 :: rest =>
      match xmcskRev len (s2 :: rest) with
      | .error e => .error e
      | .ok graph => add_sequence graph s

/-- From `src/dag/xmcsk.rs`: `pub fn xmcsk`: fold the sequences
right-to-left (the last sequence is the new one added at each step). -/
def xmcsk {T : Type} [DecidableEq T] (len : Nat) (sequences : List (List T)) :
    Except BuildError (Dag T) :=
  xmcskRev len sequences.reverse

deriving instance DecidableEq for Except

/-!
Semantic layer: the language accepted by a node of the arena, as described
by the spec ("every full path from start to an End leaf, concatenating the
Element values along the path and then the leaf's suffix").
-/

/-- Acceptance of a word from node `i` of an arena: follow a full path to
an `End` leaf, concatenating `Element` values and the terminal suffix;
`Split` accepts the union of its children's languages, `Empty` accepts
nothing. -/
inductive Accepts {T : Type} (nodes : List (Node T)) : Nat → List T → Prop where
  | endNode {i : Nat} {n : Node T} {s : List T} (h : nodes.get? i = some n)
      (he : n.inner = NodeType.End s) : Accepts nodes i s
  | elem {i : Nat} {n : Node T} {v : T} {c : Nat} {w : List T}
      (h : nodes.get? i = some n) (he : n.inner = NodeType.Element v c)
      (hc : Accepts nodes c w) : Accepts nodes i (v :: w)
  | splitLeft {i : Nat} {n : Node T} {c1 c2 : Nat} {w : List T}
      (h : nodes.get? i = some n) (he : n.inner = NodeType.Split c1 c2)
      (hc : Accepts nodes c1 w) : Accepts nodes i w
  | splitRight {i : Nat} {n : Node T} {c1 c2 : Nat} {w : List T}
      (h : nodes.get? i = some n) (he : n.inner = NodeType.Split c1 c2)
      (hc : Accepts nodes c2 w) : Accepts nodes i w

/-- Executable enumeration of the accepted words of a node (complete for
acyclic arenas once the fuel exceeds the longest path; here only its
soundness is needed, to certify concrete members of a language). -/
def acceptedWords {T : Type} (nodes : List (Node T)) : Nat → Nat → List (List T)
  | 0, _ => []
  | fuel + 1, i =>
      match nodes.get? i with
      | none => []
      | some n =>
          match n.inner with
          | NodeType.Empty => []
          | NodeType.End s => [s]
          | NodeType.Element v c => (acceptedWords nodes fuel c).map (fun w => v :: w)
          | NodeType.Split c1 c2 => acceptedWords nodes fuel c1 ++ acceptedWords nodes fuel c2

/-- Projection of a successful build result (the error branch is never
taken at the call sites where this is used). -/
def okDag {T : Type} (e : Except BuildError (Dag T)) : Dag T :=
  match e with
  | .ok d => d
  | .error _ => Dag.empty T 0

/-!
Invariants of the arenas the builders produce, used across the claims:
children of a node have strictly smaller indices (the spec's acyclicity
invariant) and the length bounds satisfy the spec's recurrences.
-/

/-- Well-formedness of a single node sitting at index `i` of an arena:
its children (if any) have indices `< i` and its `max_length` and
`min_length` satisfy the variant recurrence of spec section 3.3. -/
def NodeOk {T : Type} (nodes : List (Node T)) (i : Nat) (n : Node T) : Prop :=
  match n.inner with
  | NodeType.Empty => n.max_length = 0 ∧ n.min_length = 0
  | NodeType.End s => n.max_length = s.length ∧ n.min_length = s.length
  | NodeType.Element _ c => c < i ∧ ∃ m, nodes.get? c = some m ∧
      n.max_length = m.max_length + 1 ∧ n.min_length = m.min_length + 1
  | NodeType.Split c1 c2 => c1 < i ∧ c2 < i ∧ ∃ m1 m2, nodes.get? c1 = some m1 ∧
      nodes.get? c2 = some m2 ∧
      n.max_length = max m1.max_length m2.max_length ∧
      n.min_length = min m1.min_length m2.min_length

/-- Every node of the arena is well formed at its index. -/
def ArenaInv {T : Type} (nodes : List (Node T)) : Prop :=
  ∀ i n, nodes.get? i = some n → NodeOk nodes i n

/-- Every `Some` index stored in the memo table points into the arena. -/
def MemoValid {T : Type} (memo : List ((Nat × Nat × Nat) × Option Nat))
    (nodes : List (Node T)) : Prop :=
  ∀ pos i, memoFind memo pos = some (some i) → i < nodes.length

/-- Executable form of the acyclicity invariant for one node: children
have strictly smaller indices. -/
def childLtB {T : Type} (n : Node T) (i : Nat) : Bool :=
  match n.inner with
  | NodeType.Element _ c => decide (c < i)
  | NodeType.Split c1 c2 => decide (c1 < i) && decide (c2 < i)
  | _ => true

/-- Executable acyclicity of an arena: every child index is strictly less
than its parent's index. -/
def closedB {T : Type} (nodes : List (Node T)) : Bool :=
  nodes.enum.all (fun p => childLtB p.2 p.1)

/-- Executable form of the spec section 3.3 length coherence of one node,
including `min_length ≤ max_length`. -/
def nodeCoherentB {T : Type} (nodes : List (Node T)) (n : Node T) : Bool :=
  decide (n.min_length ≤ n.max_length) &&
  match n.inner with
  | NodeType.Empty => decide (n.max_length = 0 ∧ n.min_length = 0)
  | NodeType.End s => decide (n.max_length = s.length ∧ n.min_length = s.length)
  | NodeType.Element _ c =>
      match nodes.get? c with
      | some m => decide (n.max_length = m.max_length + 1 ∧ n.min_length = m.min_length + 1)
      | none => false
  | NodeType.Split c1 c2 =>
      match nodes.get? c1, nodes.get? c2 with
      | some m1, some m2 =>
          decide (n.max_length = max m1.max_length m2.max_length ∧
            n.min_length = min m1.min_length m2.min_length)
      | _, _ => false

/-- Executable length coherence of a whole DAG (claim C6). -/
def dagCoherentB {T : Type} (d : Dag T) : Bool :=
  d.nodes.all (nodeCoherentB d.nodes)

/-- The `max_length` recorded at the DAG's start node. -/
def rootMaxLen {T : Type} (d : Dag T) : Nat :=
  ((d.nodes.get? d.start).getD (emptyNode T)).max_length

/-- Well-formedness of a built DAG: the start index is valid and the
arena satisfies the structural invariants. -/
def DagWf {T : Type} (d : Dag T) : Prop :=
  d.start < d.nodes.length ∧ ArenaInv d.nodes

/-- The specified relation the table is meant to encode: the shorter of
the two lists (ties: either) is a subsequence of the longer. -/
def subB {T : Type} [DecidableEq T] (l1 l2 : List T) : Bool :=
  if l1.length ≤ l2.length then decide (List.Sublist l1 l2)
  else decide (List.Sublist l2 l1)

/-- Projection of a successful `SubString.compute` result (used only at
call sites where the band assertion is known to hold). -/
def okSubString (e : Except BuildError SubString) : SubString :=
  match e with
  | .ok ss => ss
  | .error _ => SubString.mk 0 0 0 (Array.mkArray 0 false)

/-- Every word enumerated by `acceptedWords` is accepted. -/
theorem accepts_of_mem_acceptedWords {T : Type} {nodes : List (Node T)} :
    ∀ {fuel i : Nat} {w : List T}, w ∈ acceptedWords nodes fuel i → Accepts nodes i w := by
  intro fuel
  induction fuel with
  | zero => intro i w hw; simp [acceptedWords] at hw
  | succ fuel ih =>
      intro i w hw
      unfold acceptedWords at hw
      cases hg : nodes.get? i with
      | none => rw [hg] at hw; simp at hw
      | some n =>
          rw [hg] at hw
          obtain ⟨maxl, minl, inner⟩ := n
          cases inner with
          | Empty => simp at hw
          | End s =>
              simp at hw
              exact hw ▸ Accepts.endNode hg rfl
          | Element v c =>
              simp at hw
              obtain ⟨w', hw', rfl⟩ := hw
              exact Accepts.elem hg rfl (ih hw')
          | Split c1 c2 =>
              simp at hw
              cases hw with
              | inl h => exact Accepts.splitLeft hg rfl (ih h)
              | inr h => exact Accepts.splitRight hg rfl (ih h)

/-- A node whose variant is `Empty` accepts no word. -/
theorem not_accepts_of_empty {T : Type} {nodes : List (Node T)} {i : Nat} {n : Node T}
    (h : nodes.get? i = some n) (he : n.inner = NodeType.Empty) {w : List T} :
    ¬ Accepts nodes i w := by
  intro hacc
  cases hacc with
  | endNode h' he' => rw [h] at h'; cases h'; rw [he] at he'; cases he'
  | elem h' he' _ => rw [h] at h'; cases h'; rw [he] at he'; cases he'
  | splitLeft h' he' _ => rw [h] at h'; cases h'; rw [he] at he'; cases he'
  | splitRight h' he' _ => rw [h] at h'; cases h'; rw [he] at he'; cases he'

/-!
Preservation lemmas for the arena invariants.
-/

theorem get?_append_of_lt {T : Type} {l1 l2 : List T} {i : Nat} (h : i < l1.length) :
    (l1 ++ l2).get? i = l1.get? i := by
  simp [List.get?_eq_getElem?, List.getElem?_append_left h]

theorem get?_concat {T : Type} (l : List T) (a : T) : (l ++ [a]).get? l.length = some a := by
  simp

/-- `NodeOk` only inspects entries below `i`, so it survives appending. -/
theorem nodeOk_append {T : Type} {nodes ext : List (Node T)} {i : Nat} {n : Node T}
    (h : NodeOk nodes i n) : NodeOk (nodes ++ ext) i n := by
  obtain ⟨maxl, minl, inner⟩ := n
  cases inner with
  | Empty => exact h
  | End s => exact h
  | Element v c =>
      obtain ⟨hc, m, hm, hb⟩ := h
      have hcl : c < nodes.length := List.get?_eq_some.mp hm |>.1
      exact ⟨hc, m, by rw [get?_append_of_lt hcl]; exact hm, hb⟩
  | Split c1 c2 =>
      obtain ⟨hc1, hc2, m1, m2, hm1, hm2, hb⟩ := h
      have hcl1 : c1 < nodes.length := List.get?_eq_some.mp hm1 |>.1
      have hcl2 : c2 < nodes.length := List.get?_eq_some.mp hm2 |>.1
      exact ⟨hc1, hc2, m1, m2, by rw [get?_append_of_lt hcl1]; exact hm1,
        by rw [get?_append_of_lt hcl2]; exact hm2, hb⟩

/-- Appending a node that is well formed at the current end of the arena
preserves the invariant. -/
theorem arenaInv_push {T : Type} {nodes : List (Node T)} {n : Node T}
    (hai : ArenaInv nodes) (hn : NodeOk nodes nodes.length n) :
    ArenaInv (nodes ++ [n]) := by
  intro i m hg
  rcases Nat.lt_trichotomy i nodes.length with hlt | heq | hgt
  · rw [get?_append_of_lt hlt] at hg
    exact nodeOk_append (hai i m hg)
  · subst heq
    rw [get?_concat] at hg
    cases hg
    exact nodeOk_append hn
  · exfalso
    have : (nodes ++ [n]).length ≤ i := by simp; omega
    rw [List.get?_eq_none.mpr this] at hg
    cases hg

theorem memoValid_append {T : Type} {memo : List ((Nat × Nat × Nat) × Option Nat)}
    {nodes ext : List (Node T)} (h : MemoValid memo nodes) : MemoValid memo (nodes ++ ext) := by
  intro pos i hf
  have := h pos i hf
  simp
  omega

theorem memoValid_cons_none {T : Type} {memo : List ((Nat × Nat × Nat) × Option Nat)}
    {nodes : List (Node T)} {pos : Nat × Nat × Nat} (h : MemoValid memo nodes) :
    MemoValid ((pos, none) :: memo) nodes := by
  intro pos' i hf
  unfold memoFind at hf
  by_cases he : pos = pos'
  · simp [he] at hf
  · simp [he] at hf
    exact h pos' i hf

theorem memoValid_cons_some {T : Type} {memo : List ((Nat × Nat × Nat) × Option Nat)}
    {nodes : List (Node T)} {pos : Nat × Nat × Nat} {j : Nat} (h : MemoValid memo nodes)
    (hj : j < nodes.length) : MemoValid ((pos, some j) :: memo) nodes := by
  intro pos' i hf
  unfold memoFind at hf
  by_cases he : pos = pos'
  · simp [he] at hf
    omega
  · simp [he] at hf
    exact h pos' i hf

/-- A query with an empty left tail always answers `true` (the guard
`i == self.d1` fires). -/
theorem is_substring_from_end_left_nil (ss : SubString) (l2 : Nat) :
    ss.is_substring_from_end 0 l2 = true := by
  simp [SubString.is_substring_from_end, SubString.is_substring_at]

/-- A query with an empty right tail always answers `true` (the guard
`j == self.d2` fires). -/
theorem is_substring_from_end_right_nil (ss : SubString) (l1 : Nat) :
    ss.is_substring_from_end l1 0 = true := by
  simp [SubString.is_substring_from_end, SubString.is_substring_at]

/-- Master lemma for the pairwise builder's recursion: with sufficient
fuel it always returns, preserves the arena and memo invariants, only
appends nodes, leaves the arena unchanged when the result is empty, and
returns a valid index otherwise. -/
theorem builder2_compute_post {T : Type} [DecidableEq T] (substr : SubString) :
    ∀ (fuel : Nat) (b : Builder2 T) (len : Nat) (s1 s2 : List T),
      ArenaInv b.nodes → MemoValid b.memo b.nodes →
      s1.length + s2.length + 1 ≤ fuel →
      ∃ b' o, Builder2.compute substr b fuel len s1 s2 = Except.ok (b', o) ∧
        ArenaInv b'.nodes ∧ MemoValid b'.memo b'.nodes ∧
        (∃ ext, b'.nodes = b.nodes ++ ext) ∧
        (o = none → b'.nodes = b.nodes) ∧
        (∀ i, o = some i → i < b'.nodes.length) := by
  intro fuel
  induction fuel with
  | zero => intro b len s1 s2 _ _ hf; omega
  | succ fuel ih =>
    intro b len s1 s2 hinv hmv hf
    cases hm : memoFind b.memo (len, s1.length, s2.length) with
    | some index =>
        refine ⟨b, index, by simp [Builder2.compute, hm], hinv, hmv, ⟨[], by simp⟩,
          fun _ => rfl, fun i hi => hmv _ i (by rw [hm, hi])⟩
    | none =>
        by_cases hgt : len > s1.length ∨ len > s2.length
        · refine ⟨Builder2.mk b.nodes (((len, s1.length, s2.length), none) :: b.memo), none,
            by simp [Builder2.compute, hm, hgt, Builder2.insert_empty_at], hinv,
            memoValid_cons_none hmv, ⟨[], by simp⟩, fun _ => rfl,
            fun i hi => Option.noConfusion hi⟩
        · by_cases hss : substr.is_substring_from_end s1.length s2.length = true
          · -- subsequence base case: an End node holding the shorter suffix
            have heq : Builder2.compute substr b (fuel + 1) len s1 s2 =
                Except.ok (b.compute_subseq_node s1 s1.length s2 s2.length
                  (len, s1.length, s2.length)) := by
              simp [Builder2.compute, hm, hgt, hss]
            by_cases hlt : s1.length < s2.length
            · have heq2 : b.compute_subseq_node s1 s1.length s2 s2.length
                  (len, s1.length, s2.length) =
                  (Builder2.mk
                    (b.nodes ++ [Node.mk s1.length s1.length (NodeType.End s1)])
                    (((len, s1.length, s2.length), some b.nodes.length) :: b.memo),
                   some b.nodes.length) := by
                simp [Builder2.compute_subseq_node, Builder2.insert_node_at, hlt]
              refine ⟨Builder2.mk
                  (b.nodes ++ [Node.mk s1.length s1.length (NodeType.End s1)])
                  (((len, s1.length, s2.length), some b.nodes.length) :: b.memo),
                some b.nodes.length, heq.trans (by rw [heq2]), ?_, ?_, ⟨_, rfl⟩,
                fun h => Option.noConfusion h, ?_⟩
              · exact arenaInv_push hinv ⟨rfl, rfl⟩
              · exact memoValid_cons_some (memoValid_append hmv) (by simp)
              · intro i hi; cases hi; simp
            · have heq2 : b.compute_subseq_node s1 s1.length s2 s2.length
                  (len, s1.length, s2.length) =
                  (Builder2.mk
                    (b.nodes ++ [Node.mk s2.length s2.length (NodeType.End s2)])
                    (((len, s1.length, s2.length), some b.nodes.length) :: b.memo),
                   some b.nodes.length) := by
                simp [Builder2.compute_subseq_node, Builder2.insert_node_at, hlt]
              refine ⟨Builder2.mk
                  (b.nodes ++ [Node.mk s2.length s2.length (NodeType.End s2)])
                  (((len, s1.length, s2.length), some b.nodes.length) :: b.memo),
                some b.nodes.length, heq.trans (by rw [heq2]), ?_, ?_, ⟨_, rfl⟩,
                fun h => Option.noConfusion h, ?_⟩
              · exact arenaInv_push hinv ⟨rfl, rfl⟩
              · exact memoValid_cons_some (memoValid_append hmv) (by simp)
              · intro i hi; cases hi; simp
          · -- the oracle answered false, so both sequences are nonempty
            cases s1 with
            | nil => exact absurd (is_substring_from_end_left_nil substr s2.length) hss
            | cons a t1 =>
              cases s2 with
              | nil => exact absurd (is_substring_from_end_right_nil substr (a :: t1).length) hss
              | cons c t2 =>
                by_cases hac : a = c
                · -- matching heads
                  obtain ⟨b1, o1, heq1, hinv1, hmv1, ⟨ext1, hext1⟩, hnone1, hsome1⟩ :=
                    ih b (len - 1) t1 t2 hinv hmv (by simp at hf ⊢; omega)
                  have heq : Builder2.compute substr b (fuel + 1) len (a :: t1) (c :: t2) =
                      Except.ok (b1.compute_common_element_node a o1
                        (len, (a :: t1).length, (c :: t2).length)) := by
                    simp only [Builder2.compute, hm, if_neg hgt]
                    rw [if_neg (by simpa using hss), if_pos hac, heq1]
                  cases o1 with
                  | none =>
                      refine ⟨Builder2.mk b1.nodes
                          (((len, (a :: t1).length, (c :: t2).length), none) :: b1.memo), none,
                        heq.trans (by
                          simp [Builder2.compute_common_element_node,
                            Builder2.insert_empty_at]), hinv1,
                        memoValid_cons_none hmv1, ⟨ext1, hext1⟩, fun _ => hnone1 rfl,
                        fun i hi => Option.noConfusion hi⟩
                  | some i =>
                      have hilt : i < b1.nodes.length := hsome1 i rfl
                      obtain ⟨m, hmg⟩ : ∃ m, b1.nodes.get? i = some m :=
                        ⟨b1.nodes.get ⟨i, hilt⟩, List.get?_eq_some.mpr ⟨hilt, rfl⟩⟩
                      have heq2 : b1.compute_common_element_node a (some i)
                          (len, (a :: t1).length, (c :: t2).length) =
                          (Builder2.mk
                            (b1.nodes ++ [Node.mk (m.max_length + 1) (m.min_length + 1)
                              (NodeType.Element a i)])
                            (((len, (a :: t1).length, (c :: t2).length),
                              some b1.nodes.length) :: b1.memo),
                           some b1.nodes.length) := by
                        simp [Builder2.compute_common_element_node,
                          Builder2.insert_node_at, ← List.get?_eq_getElem?, hmg]
                      refine ⟨Builder2.mk
                          (b1.nodes ++ [Node.mk (m.max_length + 1) (m.min_length + 1)
                            (NodeType.Element a i)])
                          (((len, (a :: t1).length, (c :: t2).length),
                            some b1.nodes.length) :: b1.memo),
                        some b1.nodes.length, heq.trans (by rw [heq2]), ?_, ?_,
                        ⟨ext1 ++ [Node.mk (m.max_length + 1) (m.min_length + 1)
                          (NodeType.Element a i)], by rw [hext1, List.append_assoc]⟩,
                        fun h => Option.noConfusion h, ?_⟩
                      · exact arenaInv_push hinv1 ⟨hilt, m, hmg, rfl, rfl⟩
                      · exact memoValid_cons_some (memoValid_append hmv1) (by simp)
                      · intro j hj; cases hj; simp
                · -- mismatching heads
                  obtain ⟨b1, o1, heq1, hinv1, hmv1, ⟨ext1, hext1⟩, hnone1, hsome1⟩ :=
                    ih b len t1 (c :: t2) hinv hmv (by simp at hf ⊢; omega)
                  obtain ⟨b2, o2, heq2, hinv2, hmv2, ⟨ext2, hext2⟩, hnone2, hsome2⟩ :=
                    ih b1 len (a :: t1) t2 hinv1 hmv1 (by simp at hf ⊢; omega)
                  have hlen12 : b1.nodes.length ≤ b2.nodes.length := by
                    rw [hext2]; simp
                  have heq : Builder2.compute substr b (fuel + 1) len (a :: t1) (c :: t2) =
                      Except.ok (b2.compute_split_node o1 o2
                        (len, (a :: t1).length, (c :: t2).length)) := by
                    simp only [Builder2.compute, hm, if_neg hgt]
                    rw [if_neg (by simpa using hss), if_neg hac, heq1]
                    simp only [heq2]
                  cases o1 with
                  | none =>
                      cases o2 with
                      | none =>
                          refine ⟨Builder2.mk b2.nodes
                              (((len, (a :: t1).length, (c :: t2).length), none) :: b2.memo),
                            none,
                            heq.trans (by
                              simp [Builder2.compute_split_node,
                                Builder2.insert_empty_at]), hinv2,
                            memoValid_cons_none hmv2, ⟨ext1 ++ ext2, by
                              rw [hext2, hext1, List.append_assoc]⟩,
                            fun _ => by
                              have h2 := hnone2 rfl
                              have h1 := hnone1 rfl
                              simp only [h2, h1],
                            fun i hi => Option.noConfusion hi⟩
                      | some i =>
                          have hilt : i < b2.nodes.length := hsome2 i rfl
                          refine ⟨Builder2.mk b2.nodes
                              (((len, (a :: t1).length, (c :: t2).length), some i) :: b2.memo),
                            some i,
                            heq.trans (by
                              simp [Builder2.compute_split_node,
                                Builder2.points_to_node]), hinv2,
                            memoValid_cons_some hmv2 hilt, ⟨ext1 ++ ext2, by
                              rw [hext2, hext1, List.append_assoc]⟩,
                            fun h => Option.noConfusion h,
                            fun j hj => by cases hj; exact hilt⟩
                  | some i =>
                      have hilt : i < b2.nodes.length :=
                        Nat.lt_of_lt_of_le (hsome1 i rfl) hlen12
                      cases o2 with
                      | none =>
                          refine ⟨Builder2.mk b2.nodes
                              (((len, (a :: t1).length, (c :: t2).length), some i) :: b2.memo),
                            some i,
                            heq.trans (by
                              simp [Builder2.compute_split_node,
                                Builder2.points_to_node]), hinv2,
                            memoValid_cons_some hmv2 hilt, ⟨ext1 ++ ext2, by
                              rw [hext2, hext1, List.append_assoc]⟩,
                            fun h => Option.noConfusion h,
                            fun j hj => by cases hj; exact hilt⟩
                      | some i2 =>
                          have hilt2 : i2 < b2.nodes.length := hsome2 i2 rfl
                          obtain ⟨m1, hmg1⟩ : ∃ m, b2.nodes.get? i = some m :=
                            ⟨b2.nodes.get ⟨i, hilt⟩, List.get?_eq_some.mpr ⟨hilt, rfl⟩⟩
                          obtain ⟨m2, hmg2⟩ : ∃ m, b2.nodes.get? i2 = some m :=
                            ⟨b2.nodes.get ⟨i2, hilt2⟩, List.get?_eq_some.mpr ⟨hilt2, rfl⟩⟩
                          have heq3 : b2.compute_split_node (some i) (some i2)
                              (len, (a :: t1).length, (c :: t2).length) =
                              (Builder2.mk
                                (b2.nodes ++ [Node.mk
                                  (max m1.max_length m2.max_length)
                                  (min m1.min_length m2.min_length)
                                  (NodeType.Split i i2)])
                                (((len, (a :: t1).length, (c :: t2).length),
                                  some b2.nodes.length) :: b2.memo),
                               some b2.nodes.length) := by
                            simp [Builder2.compute_split_node,
                              Builder2.insert_node_at, ← List.get?_eq_getElem?, hmg1, hmg2]
                          refine ⟨Builder2.mk
                              (b2.nodes ++ [Node.mk
                                (max m1.max_length m2.max_length)
                                (min m1.min_length m2.min_length)
                                (NodeType.Split i i2)])
                              (((len, (a :: t1).length, (c :: t2).length),
                                some b2.nodes.length) :: b2.memo),
                            some b2.nodes.length, heq.trans (by rw [heq3]), ?_, ?_,
                            ⟨ext1 ++ ext2 ++ [Node.mk
                                (max m1.max_length m2.max_length)
                                (min m1.min_length m2.min_length)
                                (NodeType.Split i i2)], by
                              simp [hext2, hext1]⟩,
                            fun h => Option.noConfusion h, ?_⟩
                          · exact arenaInv_push hinv2 ⟨hilt, hilt2, m1, m2, hmg1, hmg2, rfl, rfl⟩
                          · exact memoValid_cons_some (memoValid_append hmv2) (by simp)
                          · intro j hj; cases hj; simp

theorem get?_append_of_ge {T : Type} {l1 l2 : List T} {i : Nat} (h : l1.length ≤ i) :
    (l1 ++ l2).get? i = l2.get? (i - l1.length) := by
  simp [List.get?_eq_getElem?, List.getElem?_append_right h]

theorem arenaInv_nil {T : Type} : ArenaInv ([] : List (Node T)) := by
  intro i n hg
  simp at hg

theorem memoValid_nil {T : Type} {nodes : List (Node T)} : MemoValid [] nodes := by
  intro pos i hf
  simp [memoFind] at hf

theorem arenaInv_single_empty {T : Type} : ArenaInv [emptyNode T] := by
  intro i n hg
  cases i with
  | zero => cases hg; exact ⟨rfl, rfl⟩
  | succ j => simp [List.get?] at hg

/-- Structural invariants carried by every successful `xmcs2_raw` call. -/
theorem xmcs2_raw_inv {T : Type} [DecidableEq T] {len : Nat} {s1 s2 : List T}
    {ns : List (Node T)} {st : Option Nat}
    (h : xmcs2_raw len s1 s2 = Except.ok (ns, st)) :
    ArenaInv ns ∧ (st = none → ns = []) ∧ (∀ i, st = some i → i < ns.length) := by
  unfold xmcs2_raw at h
  by_cases hl : len > max s1.length s2.length
  · simp [hl] at h
  · simp only [if_neg hl] at h
    cases hsc : SubString.compute s1 s2 (max s1.length s2.length - len) with
    | error e => rw [hsc] at h; cases h
    | ok subseq =>
        rw [hsc] at h
        obtain ⟨b', o, heq, hinv, _, _, hnone, hsome⟩ :=
          builder2_compute_post subseq (s1.length + s2.length + 1)
            (Builder2.mk [] []) len s1 s2 arenaInv_nil memoValid_nil (Nat.le_refl _)
        simp only [heq] at h
        cases h
        exact ⟨hinv, hnone, hsome⟩

/-- Structural invariants of every DAG returned by `xmcs2`. -/
theorem xmcs2_inv {T : Type} [DecidableEq T] {len : Nat} {s1 s2 : List T} {d : Dag T}
    (h : xmcs2 len s1 s2 = Except.ok d) : DagWf d := by
  unfold xmcs2 at h
  cases hr : xmcs2_raw len s1 s2 with
  | error e => rw [hr] at h; cases h
  | ok p =>
      obtain ⟨graph, st⟩ := p
      obtain ⟨hinv, hnone, hsome⟩ := xmcs2_raw_inv hr
      rw [hr] at h
      cases st with
      | some s =>
          cases h
          exact ⟨hsome s rfl, hinv⟩
      | none =>
          have hg0 : graph = [] := hnone rfl
          subst hg0
          simp at h
          cases h
          exact ⟨by simp, arenaInv_single_empty⟩

theorem with_base_index_max_length {T : Type} (n : Node T) (k : Nat) :
    (n.with_base_index k).max_length = n.max_length := rfl

theorem with_base_index_min_length {T : Type} (n : Node T) (k : Nat) :
    (n.with_base_index k).min_length = n.min_length := rfl

/-- Splicing a well-formed arena onto another preserves the invariant:
the shifted children stay below their (shifted) parents and the recorded
bounds are unchanged. -/
theorem arenaInv_splice {T : Type} {base sub : List (Node T)}
    (hb : ArenaInv base) (hs : ArenaInv sub) :
    ArenaInv (base ++ sub.map (fun nd => nd.with_base_index base.length)) := by
  intro i n hg
  by_cases hi : i < base.length
  · rw [get?_append_of_lt hi] at hg
    exact nodeOk_append (hb i n hg)
  · have hge : base.length ≤ i := Nat.le_of_not_lt hi
    rw [get?_append_of_ge hge, List.get?_map] at hg
    cases hsg : sub.get? (i - base.length) with
    | none => rw [hsg] at hg; cases hg
    | some m0 =>
        rw [hsg] at hg
        cases hg
        have hok := hs _ m0 hsg
        obtain ⟨maxl, minl, inner⟩ := m0
        cases inner with
        | Empty => exact hok
        | End s => exact hok
        | Element v c =>
            obtain ⟨hc, m, hm, hb1, hb2⟩ := hok
            have hcl : c < sub.length := List.get?_eq_some.mp hm |>.1
            refine ⟨by omega, m.with_base_index base.length, ?_, by
              rw [with_base_index_max_length]; exact hb1, by
              rw [with_base_index_min_length]; exact hb2⟩
            rw [get?_append_of_ge (by omega), List.get?_map]
            rw [show c + base.length - base.length = c by omega, hm]
            rfl
        | Split c1 c2 =>
            obtain ⟨hc1, hc2, m1, m2, hm1, hm2, hb1, hb2⟩ := hok
            refine ⟨by omega, by omega, m1.with_base_index base.length,
              m2.with_base_index base.length, ?_, ?_, by
              rw [with_base_index_max_length, with_base_index_max_length]; exact hb1, by
              rw [with_base_index_min_length, with_base_index_min_length]; exact hb2⟩
            · rw [get?_append_of_ge (by omega), List.get?_map]
              rw [show c1 + base.length - base.length = c1 by omega, hm1]
              rfl
            · rw [get?_append_of_ge (by omega), List.get?_map]
              rw [show c2 + base.length - base.length = c2 by omega, hm2]
              rfl

theorem getElem?_of_get? {T : Type} {l : List T} {i : Nat} {x : T}
    (h : l.get? i = some x) : l[i]? = some x := by
  rw [← List.get?_eq_getElem?]
  exact h

/-- `xmcs2_raw` succeeds whenever the requested minimum length does not
exceed either sequence (as at the k-ary builder's `End` dispatch). -/
theorem xmcs2_raw_ok {T : Type} [DecidableEq T] {len : Nat} {s1 s2 : List T}
    (h1 : len ≤ s1.length) (h2 : len ≤ s2.length) :
    ∃ ns st, xmcs2_raw len s1 s2 = Except.ok (ns, st) ∧ ArenaInv ns ∧
      (st = none → ns = []) ∧ (∀ i, st = some i → i < ns.length) := by
  have hl : ¬ len > max s1.length s2.length := by
    simp
    omega
  have hd : ¬ distance s1.length s2.length > max s1.length s2.length - len := by
    unfold distance
    split <;> omega
  obtain ⟨b', o, heq, hinv, _, _, hnone, hsome⟩ :=
    builder2_compute_post
      (SubString.mk s1.length s2.length (max s1.length s2.length - len)
        (fillRows s1 s2 s1.length s2.length (max s1.length s2.length - len)
          (Array.mkArray (s1.length * (2 * (max s1.length s2.length - len) + 1)) false)
          s1.length))
      (s1.length + s2.length + 1) (Builder2.mk [] []) len s1 s2
      arenaInv_nil memoValid_nil (Nat.le_refl _)
  refine ⟨b'.nodes, o, ?_, hinv, hnone, hsome⟩
  simp only [xmcs2_raw, SubString.compute, if_neg hl, if_neg hd, heq]

/-- Postconditions of the k-ary split combination. -/
theorem kbuilder_split_post {T : Type} {b : KBuilder T} {o1 o2 : Option Nat}
    {pos : Nat × Nat × Nat}
    (hinv : ArenaInv b.nodes) (hmv : MemoValid b.memo b.nodes)
    (h1 : ∀ i, o1 = some i → i < b.nodes.length)
    (h2 : ∀ i, o2 = some i → i < b.nodes.length) :
    ∃ b' o, b.compute_split_node o1 o2 pos = (b', o) ∧
      ArenaInv b'.nodes ∧ MemoValid b'.memo b'.nodes ∧
      (∃ ext, b'.nodes = b.nodes ++ ext) ∧
      (o = none → b'.nodes = b.nodes ∧ o1 = none ∧ o2 = none) ∧
      (∀ i, o = some i → i < b'.nodes.length) ∧
      b'.base_graph = b.base_graph := by
  cases o1 with
  | none =>
      cases o2 with
      | none =>
          exact ⟨_, none, rfl, hinv, memoValid_cons_none hmv, ⟨[], by simp⟩,
            fun _ => ⟨rfl, rfl, rfl⟩, fun i hi => Option.noConfusion hi, rfl⟩
      | some i =>
          exact ⟨_, some i, rfl, hinv, memoValid_cons_some hmv (h2 i rfl), ⟨[], by simp⟩,
            fun hh => Option.noConfusion hh, fun j hj => by cases hj; exact h2 i rfl, rfl⟩
  | some i =>
      cases o2 with
      | none =>
          exact ⟨_, some i, rfl, hinv, memoValid_cons_some hmv (h1 i rfl), ⟨[], by simp⟩,
            fun hh => Option.noConfusion hh, fun j hj => by cases hj; exact h1 i rfl, rfl⟩
      | some i2 =>
          have hilt : i < b.nodes.length := h1 i rfl
          have hilt2 : i2 < b.nodes.length := h2 i2 rfl
          obtain ⟨m1, hmg1⟩ : ∃ m, b.nodes.get? i = some m :=
            ⟨b.nodes.get ⟨i, hilt⟩, List.get?_eq_some.mpr ⟨hilt, rfl⟩⟩
          obtain ⟨m2, hmg2⟩ : ∃ m, b.nodes.get? i2 = some m :=
            ⟨b.nodes.get ⟨i2, hilt2⟩, List.get?_eq_some.mpr ⟨hilt2, rfl⟩⟩
          by_cases hii : i = i2
          · refine ⟨KBuilder.mk b.nodes ((pos, some i) :: b.memo) b.base_graph, some i,
              ?_, hinv, memoValid_cons_some hmv hilt, ⟨[], by simp⟩,
              fun hh => Option.noConfusion hh, fun j hj => by cases hj; exact hilt, rfl⟩
            simp only [KBuilder.compute_split_node, if_pos hii, KBuilder.points_to_node]
          · by_cases hsp1 : m1.is_split_with_child i2 = true
            · refine ⟨KBuilder.mk b.nodes ((pos, some i) :: b.memo) b.base_graph, some i,
                ?_, hinv, memoValid_cons_some hmv hilt, ⟨[], by simp⟩,
                fun hh => Option.noConfusion hh, fun j hj => by cases hj; exact hilt, rfl⟩
              simp only [KBuilder.compute_split_node, if_neg hii, hmg1, hmg2, Option.getD_some, hsp1, if_pos, if_true,
                KBuilder.points_to_node]
            · by_cases hsp2 : m2.is_split_with_child i = true
              · refine ⟨KBuilder.mk b.nodes ((pos, some i2) :: b.memo) b.base_graph, some i2,
                  ?_, hinv, memoValid_cons_some hmv hilt2, ⟨[], by simp⟩,
                  fun hh => Option.noConfusion hh, fun j hj => by cases hj; exact hilt2, rfl⟩
                simp only [KBuilder.compute_split_node, if_neg hii, hmg1, hmg2, Option.getD_some, hsp1, hsp2, Bool.false_eq_true,
                  if_false, if_pos, if_true, KBuilder.points_to_node]
              · refine ⟨KBuilder.mk
                    (b.nodes ++ [Node.mk (max m1.max_length m2.max_length)
                      (min m1.min_length m2.min_length) (NodeType.Split i i2)])
                    ((pos, some b.nodes.length) :: b.memo) b.base_graph,
                  some b.nodes.length, ?_, ?_, ?_, ⟨_, rfl⟩,
                  fun hh => Option.noConfusion hh, ?_, rfl⟩
                · simp only [KBuilder.compute_split_node, if_neg hii, hmg1, hmg2, Option.getD_some, hsp1, hsp2, Bool.false_eq_true,
                    if_false, KBuilder.insert_node_at]
                · exact arenaInv_push hinv ⟨hilt, hilt2, m1, m2, hmg1, hmg2, rfl, rfl⟩
                · exact memoValid_cons_some (memoValid_append hmv) (by simp)
                · intro j hj; cases hj; simp

/-- Postconditions of the k-ary element wrapping. -/
theorem kbuilder_common_element_post {T : Type} {b : KBuilder T} {o1 : Option Nat} {v : T}
    {pos : Nat × Nat × Nat}
    (hinv : ArenaInv b.nodes) (hmv : MemoValid b.memo b.nodes)
    (h1 : ∀ i, o1 = some i → i < b.nodes.length) :
    ∃ b' o, b.compute_common_element_node o1 v pos = (b', o) ∧
      ArenaInv b'.nodes ∧ MemoValid b'.memo b'.nodes ∧
      (∃ ext, b'.nodes = b.nodes ++ ext) ∧
      (o = none → b'.nodes = b.nodes ∧ o1 = none) ∧
      (∀ i, o = some i → i < b'.nodes.length) ∧
      b'.base_graph = b.base_graph := by
  cases o1 with
  | none =>
      exact ⟨_, none, rfl, hinv, memoValid_cons_none hmv, ⟨[], by simp⟩,
        fun _ => ⟨rfl, rfl⟩, fun i hi => Option.noConfusion hi, rfl⟩
  | some i =>
      have hilt : i < b.nodes.length := h1 i rfl
      obtain ⟨m, hmg⟩ : ∃ m, b.nodes.get? i = some m :=
        ⟨b.nodes.get ⟨i, hilt⟩, List.get?_eq_some.mpr ⟨hilt, rfl⟩⟩
      refine ⟨KBuilder.mk
          (b.nodes ++ [Node.mk (m.max_length + 1) (m.min_length + 1) (NodeType.Element v i)])
          ((pos, some b.nodes.length) :: b.memo) b.base_graph,
        some b.nodes.length, ?_, ?_, ?_, ⟨_, rfl⟩,
        fun hh => Option.noConfusion hh, ?_, rfl⟩
      · simp only [KBuilder.compute_common_element_node, hmg, Option.getD_some, KBuilder.insert_node_at]
      · exact arenaInv_push hinv ⟨hilt, m, hmg, rfl, rfl⟩
      · exact memoValid_cons_some (memoValid_append hmv) (by simp)
      · intro j hj; cases hj; simp

/-- Master lemma for the k-ary builder's recursion: under the arena
invariants of the builder state and of the base graph, with sufficient
fuel, `compute` always returns `ok` and preserves the invariants. -/
theorem kbuilder_compute_post {T : Type} [DecidableEq T] :
    ∀ (fuel : Nat) (b : KBuilder T) (len current : Nat) (seq : List T),
      ArenaInv b.nodes → MemoValid b.memo b.nodes → ArenaInv b.base_graph →
      current < b.base_graph.length →
      seq.length + current + 1 ≤ fuel →
      ∃ b' o, KBuilder.compute b fuel len current seq = Except.ok (b', o) ∧
        ArenaInv b'.nodes ∧ MemoValid b'.memo b'.nodes ∧
        (∃ ext, b'.nodes = b.nodes ++ ext) ∧
        (o = none → b'.nodes = b.nodes) ∧
        (∀ i, o = some i → i < b'.nodes.length) ∧
        b'.base_graph = b.base_graph := by
  intro fuel
  induction fuel with
  | zero => intro b len current seq _ _ _ _ hf; omega
  | succ fuel ih =>
    intro b len current seq hinv hmv hbase hcur hf
    obtain ⟨node, hgc⟩ : ∃ node, b.base_graph.get? current = some node :=
      ⟨b.base_graph.get ⟨current, hcur⟩, List.get?_eq_some.mpr ⟨hcur, rfl⟩⟩
    obtain ⟨maxl, minl, inner⟩ := node
    cases hm : memoFind b.memo (len, maxl, seq.length) with
    | some index =>
        refine ⟨b, index, ?_, hinv, hmv, ⟨[], by simp⟩,
          fun _ => rfl, fun i hi => hmv _ i (by rw [hm, hi]), rfl⟩
        simp only [KBuilder.compute, hgc, hm]
    | none =>
        by_cases hgt : len > maxl ∨ len > seq.length
        · refine ⟨KBuilder.mk b.nodes (((len, maxl, seq.length), none) :: b.memo)
              b.base_graph, none, ?_, hinv,
            memoValid_cons_none hmv, ⟨[], by simp⟩, fun _ => rfl,
            fun i hi => Option.noConfusion hi, rfl⟩
          simp only [KBuilder.compute, hgc, hm, if_pos hgt, KBuilder.insert_empty_at]
        · have hok := hbase current _ hgc
          cases inner with
          | Empty =>
              refine ⟨KBuilder.mk b.nodes (((len, maxl, seq.length), none) :: b.memo)
                  b.base_graph, none, ?_, hinv,
                memoValid_cons_none hmv, ⟨[], by simp⟩, fun _ => rfl,
                fun i hi => Option.noConfusion hi, rfl⟩
              simp only [KBuilder.compute, hgc, hm, if_neg hgt, KBuilder.insert_empty_at]
          | End suffix =>
              obtain ⟨hmax, hmin⟩ := hok
              simp only at hmax hmin
              obtain ⟨ns, st, hraw, hsubinv, hsubnone, hsubsome⟩ :=
                @xmcs2_raw_ok _ _ len suffix seq (by omega) (by omega)
              have heq : KBuilder.compute b (fuel + 1) len current seq =
                  Except.ok (b.insert_subgraph_at (len, maxl, seq.length) ns st) := by
                simp only [KBuilder.compute, hgc, hm, if_neg hgt, hraw]
              cases st with
              | none =>
                  refine ⟨KBuilder.mk b.nodes (((len, maxl, seq.length), none) :: b.memo)
                      b.base_graph, none,
                    heq.trans (by simp only [KBuilder.insert_subgraph_at,
                      KBuilder.insert_empty_at]), hinv,
                    memoValid_cons_none hmv, ⟨[], by simp⟩, fun _ => rfl,
                    fun i hi => Option.noConfusion hi, rfl⟩
              | some s =>
                  have hslt : s < ns.length := hsubsome s rfl
                  refine ⟨KBuilder.mk
                      (b.nodes ++ ns.map (fun nd => nd.with_base_index b.nodes.length))
                      b.memo b.base_graph, some (s + b.nodes.length),
                    heq.trans (by simp only [KBuilder.insert_subgraph_at]), ?_, ?_, ⟨_, rfl⟩,
                    fun hh => Option.noConfusion hh, ?_, rfl⟩
                  · exact arenaInv_splice hinv hsubinv
                  · exact memoValid_append hmv
                  · intro j hj
                    cases hj
                    simp
                    omega
          | Split child1 child2 =>
              obtain ⟨hc1, hc2, hrest⟩ := hok
              obtain ⟨b1, o1, heq1, hinv1, hmv1, ⟨ext1, hext1⟩, hnone1, hsome1, hbg1⟩ :=
                ih b len child1 seq hinv hmv hbase (by omega) (by omega)
              obtain ⟨b2, o2, heq2, hinv2, hmv2, ⟨ext2, hext2⟩, hnone2, hsome2, hbg2⟩ :=
                ih b1 len child2 seq hinv1 hmv1 (hbg1 ▸ hbase) (by rw [hbg1]; omega)
                  (by omega)
              have hsome1' : ∀ i, o1 = some i → i < b2.nodes.length := by
                intro i hi
                have := hsome1 i hi
                rw [hext2]
                simp
                omega
              obtain ⟨b3, o3, heq3, hinv3, hmv3, ⟨ext3, hext3⟩, hnone3, hsome3, hbg3⟩ :=
                @kbuilder_split_post _ _ _ _ (len, maxl, seq.length) hinv2 hmv2 hsome1' hsome2
              refine ⟨b3, o3, ?_, hinv3, hmv3,
                ⟨ext1 ++ ext2 ++ ext3, by simp [hext3, hext2, hext1]⟩, ?_, hsome3,
                by rw [hbg3, hbg2, hbg1]⟩
              · simp only [KBuilder.compute, hgc, hm, if_neg hgt, heq1, heq2, heq3]
              · intro hh
                obtain ⟨hn3, hn1, hn2⟩ := hnone3 hh
                rw [hn3, hnone2 hn2, hnone1 hn1]
          | Element value child =>
              obtain ⟨hch, hrest⟩ := hok
              cases seq with
              | nil =>
                  by_cases hlz : len = 0
                  · refine ⟨KBuilder.mk
                        (b.nodes ++ [Node.mk 0 0 (NodeType.End [])])
                        (((len, maxl, List.length ([] : List T)), some b.nodes.length)
                          :: b.memo) b.base_graph,
                      some b.nodes.length, ?_, ?_, ?_, ⟨_, rfl⟩,
                      fun hh => Option.noConfusion hh, ?_, rfl⟩
                    · simp only [KBuilder.compute, hgc, hm, if_neg hgt, if_pos hlz,
                        KBuilder.insert_node_at]
                    · exact arenaInv_push hinv ⟨rfl, rfl⟩
                    · exact memoValid_cons_some (memoValid_append hmv) (by simp)
                    · intro j hj; cases hj; simp
                  · refine ⟨KBuilder.mk b.nodes
                        (((len, maxl, List.length ([] : List T)), none) :: b.memo)
                        b.base_graph, none, ?_, hinv,
                      memoValid_cons_none hmv, ⟨[], by simp⟩, fun _ => rfl,
                      fun i hi => Option.noConfusion hi, rfl⟩
                    simp only [KBuilder.compute, hgc, hm, if_neg hgt, if_neg hlz,
                      KBuilder.insert_empty_at]
              | cons s0 t =>
                  by_cases hv : value = s0
                  · obtain ⟨b1, o1, heq1, hinv1, hmv1, ⟨ext1, hext1⟩, hnone1, hsome1, hbg1⟩ :=
                      ih b (len - 1) child t hinv hmv hbase (by omega)
                        (by simp at hf; omega)
                    obtain ⟨b2, o2, heq2, hinv2, hmv2, ⟨ext2, hext2⟩, hnone2, hsome2, hbg2⟩ :=
                      @kbuilder_common_element_post _ _ _ value
                        (len, maxl, (s0 :: t).length) hinv1 hmv1 hsome1
                    refine ⟨b2, o2, ?_, hinv2, hmv2,
                      ⟨ext1 ++ ext2, by simp [hext2, hext1]⟩, ?_, hsome2,
                      by rw [hbg2, hbg1]⟩
                    · simp only [KBuilder.compute, hgc, hm, if_neg hgt, if_pos hv, heq1, heq2]
                    · intro hh
                      obtain ⟨hn2, hn1⟩ := hnone2 hh
                      rw [hn2, hnone1 hn1]
                  · obtain ⟨b1, o1, heq1, hinv1, hmv1, ⟨ext1, hext1⟩, hnone1, hsome1, hbg1⟩ :=
                      ih b len current t hinv hmv hbase hcur (by simp at hf ⊢; omega)
                    obtain ⟨b2, o2, heq2, hinv2, hmv2, ⟨ext2, hext2⟩, hnone2, hsome2, hbg2⟩ :=
                      ih b1 len child (s0 :: t) hinv1 hmv1 (hbg1 ▸ hbase)
                        (by rw [hbg1]; omega) (by simp at hf ⊢; omega)
                    have hsome1' : ∀ i, o1 = some i → i < b2.nodes.length := by
                      intro i hi
                      have := hsome1 i hi
                      rw [hext2]
                      simp
                      omega
                    obtain ⟨b3, o3, heq3, hinv3, hmv3, ⟨ext3, hext3⟩, hnone3, hsome3, hbg3⟩ :=
                      @kbuilder_split_post _ _ _ _ (len, maxl, (s0 :: t).length) hinv2 hmv2
                        hsome1' hsome2
                    refine ⟨b3, o3, ?_, hinv3, hmv3,
                      ⟨ext1 ++ ext2 ++ ext3, by simp [hext3, hext2, hext1]⟩, ?_, hsome3,
                      by rw [hbg3, hbg2, hbg1]⟩
                    · simp only [KBuilder.compute, hgc, hm, if_neg hgt, if_neg hv, heq1,
                        heq2, heq3]
                    · intro hh
                      obtain ⟨hn3, hn1, hn2⟩ := hnone3 hh
                      rw [hn3, hnone2 hn2, hnone1 hn1]

theorem arenaInv_singleton {T : Type} (seq : List T) :
    ArenaInv [emptyNode T, Node.mk seq.length seq.length (NodeType.End seq)] := by
  intro i n hg
  match i, hg with
  | 0, hg => cases hg; exact ⟨rfl, rfl⟩
  | 1, hg => cases hg; exact ⟨rfl, rfl⟩
  | (j+2), hg => simp [List.get?] at hg

/-- `add_sequence` always succeeds on a well-formed DAG and produces a
well-formed DAG. -/
theorem add_sequence_post {T : Type} [DecidableEq T] {d : Dag T} (hwf : DagWf d)
    (seq : List T) : ∃ d', add_sequence d seq = Except.ok d' ∧ DagWf d' := by
  obtain ⟨hstart, hinv⟩ := hwf
  obtain ⟨b', o, heq, hinv', hmv', ⟨ext, hext⟩, hnone, hsome, hbg⟩ :=
    kbuilder_compute_post (seq.length + d.start + 1) (KBuilder.mk [] [] d.nodes)
      d.len d.start seq arenaInv_nil memoValid_nil hinv hstart (Nat.le_refl _)
  cases o with
  | some s =>
      refine ⟨Dag.mk b'.nodes s d.len, ?_, hsome s rfl, hinv'⟩
      simp only [add_sequence, heq]
  | none =>
      have hbn : b'.nodes = [] := hnone rfl
      refine ⟨Dag.mk [emptyNode T] 0 d.len, ?_, Nat.zero_lt_one, arenaInv_single_empty⟩
      simp only [add_sequence, heq, hbn]
      simp

/-- The fold underlying `xmcsk` always succeeds and yields a well-formed
DAG. -/
theorem xmcskRev_ok {T : Type} [DecidableEq T] (len : Nat) :
    ∀ seqs : List (List T), ∃ d, xmcskRev len seqs = Except.ok d ∧ DagWf d := by
  intro seqs
  induction seqs with
  | nil => exact ⟨Dag.empty T len, rfl, Nat.zero_lt_one, arenaInv_single_empty⟩
  | cons s rest ihr =>
      cases rest with
      | nil => exact ⟨Dag.singleton len s, rfl, Nat.one_lt_two, arenaInv_singleton s⟩
      | cons s2 rest2 =>
          obtain ⟨d, hd, hwf⟩ := ihr
          obtain ⟨d', hd', hwf'⟩ := add_sequence_post hwf s
          exact ⟨d', by simp only [xmcskRev, hd, hd'], hwf'⟩

/-- `xmcsk` always succeeds and yields a well-formed DAG. -/
theorem xmcsk_wf {T : Type} [DecidableEq T] (len : Nat) (seqs : List (List T)) :
    ∃ d, xmcsk len seqs = Except.ok d ∧ DagWf d :=
  xmcskRev_ok len seqs.reverse

/-- Structural invariants of every DAG returned by `xmcsk`. -/
theorem xmcsk_inv {T : Type} [DecidableEq T] {len : Nat} {seqs : List (List T)} {d : Dag T}
    (h : xmcsk len seqs = Except.ok d) : DagWf d := by
  obtain ⟨d0, h0, hwf⟩ := xmcsk_wf len seqs
  cases h0.symm.trans h
  exact hwf

/-- The length bounds recurrences imply `min_length ≤ max_length`
everywhere (by strong induction along the acyclic child order). -/
theorem min_le_max_of_arenaInv {T : Type} {nodes : List (Node T)} (h : ArenaInv nodes) :
    ∀ i n, nodes.get? i = some n → n.min_length ≤ n.max_length := by
  intro i
  induction i using Nat.strong_induction_on with
  | _ i ih =>
      intro n hg
      have hok := h i n hg
      obtain ⟨maxl, minl, inner⟩ := n
      cases inner with
      | Empty =>
          obtain ⟨h1, h2⟩ := hok
          simp at h1 h2 ⊢
          omega
      | End s =>
          obtain ⟨h1, h2⟩ := hok
          simp at h1 h2 ⊢
          omega
      | Element v c =>
          obtain ⟨hc, m, hm, h1, h2⟩ := hok
          have hq := ih c hc m hm
          simp at h1 h2 ⊢
          omega
      | Split c1 c2 =>
          obtain ⟨hc1, hc2, m1, m2, hm1, hm2, h1, h2⟩ := hok
          have hq1 := ih c1 hc1 m1 hm1
          have hq2 := ih c2 hc2 m2 hm2
          simp at h1 h2 ⊢
          omega

/-- A well-formed DAG passes the executable length-coherence check. -/
theorem dagCoherentB_of_wf {T : Type} {d : Dag T} (h : DagWf d) : dagCoherentB d = true := by
  obtain ⟨_, hinv⟩ := h
  unfold dagCoherentB
  rw [List.all_eq_true]
  intro n hn
  obtain ⟨i, hi⟩ := List.mem_iff_get?.mp hn
  have hok := hinv i n hi
  have hmm := min_le_max_of_arenaInv hinv i n hi
  unfold nodeCoherentB
  obtain ⟨maxl, minl, inner⟩ := n
  cases inner with
  | Empty =>
      obtain ⟨h1, h2⟩ := hok
      simp only [Bool.and_eq_true, decide_eq_true_eq]
      exact ⟨hmm, h1, h2⟩
  | End s =>
      obtain ⟨h1, h2⟩ := hok
      simp only [Bool.and_eq_true, decide_eq_true_eq]
      exact ⟨hmm, h1, h2⟩
  | Element v c =>
      obtain ⟨hc, m, hm, h1, h2⟩ := hok
      simp only [hm, Bool.and_eq_true, decide_eq_true_eq]
      exact ⟨hmm, h1, h2⟩
  | Split c1 c2 =>
      obtain ⟨hc1, hc2, m1, m2, hm1, hm2, h1, h2⟩ := hok
      simp only [hm1, hm2, Bool.and_eq_true, decide_eq_true_eq]
      exact ⟨hmm, h1, h2⟩

/-- Specification of `extract_lcs_impl` on well-formed arenas: it
returns the buffer extended by a word whose length is exactly the node's
`max_length` (descending into the child with the larger bound). -/
theorem extract_impl_spec {T : Type} {nodes : List (Node T)} (hinv : ArenaInv nodes) :
    ∀ i n, nodes.get? i = some n → ∀ fuel buffer, i + 1 ≤ fuel →
      ∃ w, Dag.extract_lcs_impl nodes fuel n buffer = some (buffer ++ w) ∧
        w.length = n.max_length := by
  intro i
  induction i using Nat.strong_induction_on with
  | _ i ih =>
      intro n hg fuel buffer hfuel
      obtain ⟨fuel, rfl⟩ : ∃ f, fuel = f + 1 := ⟨fuel - 1, by omega⟩
      have hok := hinv i n hg
      obtain ⟨maxl, minl, inner⟩ := n
      cases inner with
      | Empty =>
          obtain ⟨h1, h2⟩ := hok
          simp only at h1
          exact ⟨[], by simp [Dag.extract_lcs_impl], by simp [h1]⟩
      | End s =>
          obtain ⟨h1, h2⟩ := hok
          simp only at h1
          exact ⟨s, by simp [Dag.extract_lcs_impl], by simp [h1]⟩
      | Element v c =>
          obtain ⟨hc, m, hm, h1, h2⟩ := hok
          simp only at h1
          obtain ⟨w, hw, hwl⟩ := ih c hc m hm fuel (buffer ++ [v]) (by omega)
          exact ⟨v :: w, by simp [Dag.extract_lcs_impl, getElem?_of_get? hm, hw],
            by simp [hwl, h1]⟩
      | Split c1 c2 =>
          obtain ⟨hc1, hc2, m1, m2, hm1, hm2, h1, h2⟩ := hok
          simp only at h1
          by_cases hgt : m1.max_length > m2.max_length
          · obtain ⟨w, hw, hwl⟩ := ih c1 hc1 m1 hm1 fuel buffer (by omega)
            refine ⟨w, ?_, by simp only [hwl, h1]; omega⟩
            simp only [Dag.extract_lcs_impl, hm1, hm2, if_pos hgt, hw]
          · obtain ⟨w, hw, hwl⟩ := ih c2 hc2 m2 hm2 fuel buffer (by omega)
            refine ⟨w, ?_, by simp only [hwl, h1]; omega⟩
            simp only [Dag.extract_lcs_impl, hm1, hm2, if_neg hgt, hw]

/-- Specification of `extract_lcs` on well-formed DAGs: it returns
nothing exactly when the root's `max_length` is zero, and otherwise a
sequence of exactly that length. -/
theorem extract_lcs_spec {T : Type} {d : Dag T} (hwf : DagWf d) :
    (d.extract_lcs = none ↔ rootMaxLen d = 0) ∧
    (∀ w, d.extract_lcs = some w → w.length = rootMaxLen d) := by
  obtain ⟨hstart, hinv⟩ := hwf
  obtain ⟨root, hroot⟩ : ∃ r, d.nodes.get? d.start = some r :=
    ⟨d.nodes.get ⟨d.start, hstart⟩, List.get?_eq_some.mpr ⟨hstart, rfl⟩⟩
  have hrml : rootMaxLen d = root.max_length := by
    unfold rootMaxLen
    rw [hroot]
    rfl
  by_cases hz : root.max_length = 0
  · have hext : d.extract_lcs = none := by
      unfold Dag.extract_lcs
      rw [hroot]
      simp [hz]
    refine ⟨by rw [hext, hrml]; simp [hz], ?_⟩
    intro w hw
    rw [hext] at hw
    cases hw
  · obtain ⟨w, hw, hwl⟩ :=
      extract_impl_spec hinv d.start root hroot (d.nodes.length + 1) [] (by omega)
    have hext : d.extract_lcs = some w := by
      unfold Dag.extract_lcs
      rw [hroot]
      simp [hz, hw]
    refine ⟨by rw [hext, hrml]; simp [hz], ?_⟩
    intro w' hw'
    rw [hext] at hw'
    cases hw'
    rw [hrml, hwl]

/-- The result of `add_sequence` keeps the minimum length of the input
DAG. -/
theorem add_sequence_len {T : Type} [DecidableEq T] {d d' : Dag T} {seq : List T}
    (h : add_sequence d seq = Except.ok d') : d'.len = d.len := by
  simp only [add_sequence] at h
  cases hc : KBuilder.compute (KBuilder.mk [] [] d.nodes) (seq.length + d.start + 1)
      d.len d.start seq with
  | error e => rw [hc] at h; cases h
  | ok p =>
      obtain ⟨b', o⟩ := p
      rw [hc] at h
      cases o with
      | some s => cases h; rfl
      | none =>
          have h2 : (if b'.nodes.length = 0 then
              Except.ok (Dag.mk [emptyNode T] 0 d.len)
              else Except.error BuildError.panic) = Except.ok d' := h
          by_cases hz : b'.nodes.length = 0
          · rw [if_pos hz] at h2
            cases h2
            rfl
          · rw [if_neg hz] at h2
            cases h2

/-- The fold keeps the minimum length. -/
theorem xmcskRev_len {T : Type} [DecidableEq T] {len : Nat} :
    ∀ {seqs : List (List T)} {d : Dag T}, xmcskRev len seqs = Except.ok d → d.len = len := by
  intro seqs
  induction seqs with
  | nil => intro d h; cases h; rfl
  | cons s rest ihr =>
      intro d h
      cases rest with
      | nil => cases h; rfl
      | cons s2 rest2 =>
          unfold xmcskRev at h
          cases hr : xmcskRev len (s2 :: rest2) with
          | error e => rw [hr] at h; cases h
          | ok g =>
              rw [hr] at h
              rw [add_sequence_len h, ihr hr]

/-- When the minimum length exceeds the shorter input, `xmcs2` hits the
`SubString::new` band assertion (or the `n - len` underflow) and
panics. -/
theorem xmcs2_short_panic {T : Type} [DecidableEq T] {len : Nat} {s1 s2 : List T}
    (h : min s1.length s2.length < len) : xmcs2 len s1 s2 = Except.error BuildError.panic := by
  have hraw : xmcs2_raw len s1 s2 = Except.error BuildError.panic := by
    unfold xmcs2_raw
    by_cases hn : len > max s1.length s2.length
    · simp [hn]
    · have hd : distance s1.length s2.length > max s1.length s2.length - len := by
        unfold distance
        split <;> omega
      simp only [if_neg hn, SubString.compute, if_pos hd]
  unfold xmcs2
  rw [hraw]

/-- One step of the k-ary recursion: when the minimum length exceeds the
root bound or the new sequence, `add_sequence` yields the empty DAG. -/
theorem add_sequence_to_empty {T : Type} [DecidableEq T] {d : Dag T} (hwf : DagWf d)
    {seq : List T} (hshort : rootMaxLen d < d.len ∨ seq.length < d.len) :
    add_sequence d seq = Except.ok (Dag.mk [emptyNode T] 0 d.len) := by
  obtain ⟨hstart, hinv⟩ := hwf
  obtain ⟨root, hroot⟩ : ∃ r, d.nodes.get? d.start = some r :=
    ⟨d.nodes.get ⟨d.start, hstart⟩, List.get?_eq_some.mpr ⟨hstart, rfl⟩⟩
  have hrm : rootMaxLen d = root.max_length := by
    unfold rootMaxLen
    rw [hroot]
    rfl
  have hcond : d.len > root.max_length ∨ d.len > seq.length := by
    rw [hrm] at hshort
    omega
  have hstep : KBuilder.compute (KBuilder.mk [] [] d.nodes) (seq.length + d.start + 1)
      d.len d.start seq =
      Except.ok (KBuilder.mk []
        [((d.len, root.max_length, seq.length), (none : Option Nat))] d.nodes, none) := by
    simp only [KBuilder.compute, hroot, memoFind, if_pos hcond, KBuilder.insert_empty_at]
  unfold add_sequence
  simp only [hstep]
  simp

/-- The whole fold collapses to the empty DAG as soon as (at least) two
sequences are present and one of them is shorter than the minimum
length. -/
theorem xmcskRev_short_empty {T : Type} [DecidableEq T] {len : Nat} :
    ∀ (seqs : List (List T)), 2 ≤ seqs.length → (∃ s ∈ seqs, s.length < len) →
      xmcskRev len seqs = Except.ok (Dag.mk [emptyNode T] 0 len) := by
  intro seqs
  induction seqs with
  | nil => intro hlen; simp at hlen
  | cons s rest ihr =>
      intro hlen hex
      cases rest with
      | nil => simp at hlen
      | cons s2 rest2 =>
          by_cases hex2 : ∃ u ∈ s2 :: rest2, u.length < len
          · have hpos : 0 < len := by
              obtain ⟨u, _, hul⟩ := hex2
              omega
            cases rest2 with
            | nil =>
                obtain ⟨u, hu, hul⟩ := hex2
                simp at hu
                subst hu
                have := @add_sequence_to_empty _ _ (Dag.singleton len u)
                  ⟨Nat.one_lt_two, arenaInv_singleton u⟩ s (Or.inl hul)
                simpa only [xmcskRev] using this
            | cons s3 rest3 =>
                have hih := ihr (by simp) hex2
                have hstep := @add_sequence_to_empty _ _ (Dag.mk [emptyNode T] 0 len)
                  ⟨Nat.zero_lt_one, arenaInv_single_empty⟩ s (Or.inl hpos)
                conv_lhs => rw [xmcskRev]
                rw [hih]
                exact hstep
          · have hsl : s.length < len := by
              obtain ⟨u, hu, hul⟩ := hex
              cases hu with
              | head => exact hul
              | tail _ hu2 => exact absurd ⟨u, hu2, hul⟩ hex2
            obtain ⟨g, hg, hwf⟩ := xmcskRev_ok len (s2 :: rest2)
            have hgl : g.len = len := xmcskRev_len hg
            have hstep := @add_sequence_to_empty _ _ _ hwf s
              (Or.inr (by rw [hgl]; exact hsl))
            conv_lhs => rw [xmcskRev]
            rw [hg]
            show add_sequence g s = Except.ok (Dag.mk [emptyNode T] 0 len)
            rw [hstep, hgl]

/-- C3 fails as stated on `xmcs2`: with ℓ = 2 and inputs `[0,1]`, `[0]`
(shortest length 1 < 2), `xmcs2` does not return the empty-result DAG; it
panics in `SubString::new` (band assertion). -/
theorem c3_counterexample :
    min ([(0:Nat), 1] : List Nat).length ([(0:Nat)] : List Nat).length < 2
    ∧ xmcs2 2 [(0:Nat), 1] [0] = Except.error BuildError.panic
    ∧ xmcs2 2 [(0:Nat), 1] [0] ≠ Except.ok (Dag.empty Nat 2) := by
  refine ⟨by decide, by decide, ?_⟩
  intro hcon
  rw [show xmcs2 2 [(0:Nat), 1] [0] = Except.error BuildError.panic from by decide] at hcon
  cases hcon

/-- C3 amended: when ℓ exceeds the shorter input, `xmcs2` panics rather
than returning a DAG; `xmcsk` on a single sequence returns the singleton
DAG unchanged even when the sequence is shorter than ℓ; and `xmcsk` on at
least two sequences returns the empty-result DAG (single `Empty` node at
index 0, start 0) whenever some input is shorter than ℓ. -/
theorem c3_boundary_amended {T : Type} [DecidableEq T] :
    (∀ (len : Nat) (s1 s2 : List T), min s1.length s2.length < len →
      xmcs2 len s1 s2 = Except.error BuildError.panic) ∧
    (∀ (len : Nat) (s : List T), xmcsk len [s] = Except.ok (Dag.singleton len s)) ∧
    (∀ (len : Nat) (seqs : List (List T)), 2 ≤ seqs.length →
      (∃ s ∈ seqs, s.length < len) →
      xmcsk len seqs = Except.ok (Dag.mk [emptyNode T] 0 len)) := by
  refine ⟨fun _ _ _ h => xmcs2_short_panic h, fun len s => rfl, ?_⟩
  intro len seqs hlen hex
  unfold xmcsk
  refine xmcskRev_short_empty seqs.reverse (by simp; omega) ?_
  obtain ⟨s, hs, hsl⟩ := hex
  exact ⟨s, List.mem_reverse.mpr hs, hsl⟩

/-- C3 witness: the amended statements instantiated at concrete inputs. -/
theorem c3_witness :
    xmcs2 3 [(0:Nat), 1, 2] [0, 1] = Except.error BuildError.panic
    ∧ xmcsk 3 [[(0:Nat), 1]] = Except.ok (Dag.singleton 3 [0, 1])
    ∧ xmcsk 2 [[(0:Nat)], [0, 1]] = Except.ok (Dag.mk [emptyNode Nat] 0 2) :=
  ⟨c3_boundary_amended.1 3 [(0:Nat), 1, 2] [0, 1] (by decide),
   c3_boundary_amended.2.1 3 [(0:Nat), 1],
   c3_boundary_amended.2.2 2 [[(0:Nat)], [0, 1]] (by decide) ⟨[0], by decide, by decide⟩⟩


theorem lt_length_of_get {T : Type} {l : List T} {i : Nat} {a : T}
    (h : l.get? i = some a) : i < l.length :=
  List.get?_eq_some.mp h |>.1

/-- Acceptance is preserved when the arena is extended on the right. -/
theorem accepts_append {T : Type} {nodes ext : List (Node T)} {i : Nat} {w : List T}
    (h : Accepts nodes i w) : Accepts (nodes ++ ext) i w := by
  induction h with
  | endNode h he =>
      exact Accepts.endNode (by rw [get?_append_of_lt (lt_length_of_get h)]; exact h) he
  | elem h he _ ih =>
      exact Accepts.elem (by rw [get?_append_of_lt (lt_length_of_get h)]; exact h) he ih
  | splitLeft h he _ ih =>
      exact Accepts.splitLeft (by rw [get?_append_of_lt (lt_length_of_get h)]; exact h) he ih
  | splitRight h he _ ih =>
      exact Accepts.splitRight (by rw [get?_append_of_lt (lt_length_of_get h)]; exact h) he ih

/-- In a closed arena (every child index below its parent, as `ArenaInv`
guarantees), a path starting inside the original arena never reaches the
appended nodes, so acceptance restricts back. -/
theorem accepts_of_append {T : Type} {nodes ext : List (Node T)}
    (hinv : ArenaInv nodes) {i : Nat} {w : List T}
    (h : Accepts (nodes ++ ext) i w) : i < nodes.length → Accepts nodes i w := by
  induction h with
  | endNode h he =>
      intro hi
      rw [get?_append_of_lt hi] at h
      exact Accepts.endNode h he
  | elem h he _ ih =>
      intro hi
      rw [get?_append_of_lt hi] at h
      have hok := hinv _ _ h
      simp only [NodeOk, he] at hok
      exact Accepts.elem h he (ih (Nat.lt_trans hok.1 hi))
  | splitLeft h he _ ih =>
      intro hi
      rw [get?_append_of_lt hi] at h
      have hok := hinv _ _ h
      simp only [NodeOk, he] at hok
      exact Accepts.splitLeft h he (ih (Nat.lt_trans hok.1 hi))
  | splitRight h he _ ih =>
      intro hi
      rw [get?_append_of_lt hi] at h
      have hok := hinv _ _ h
      simp only [NodeOk, he] at hok
      exact Accepts.splitRight h he (ih (Nat.lt_trans hok.2.1 hi))

theorem getD_setD_ne (a : Array Bool) (t t' : Nat) (v : Bool) (h : t ≠ t') :
    (a.setD t v).getD t' false = a.getD t' false := by
  simp only [Array.getD_eq_get?]
  unfold Array.setD
  by_cases hts : t < a.size
  · simp only [dif_pos hts]
    rw [Array.get?_set]
    simp only [if_neg h]
  · simp only [dif_neg hts]

theorem getD_setD_self (a : Array Bool) (t : Nat) (v : Bool) (h : t < a.size) :
    (a.setD t v).getD t false = v := by
  simp only [Array.getD_eq_get?]
  rw [Array.getElem?_setD_eq a h v]
  rfl

theorem distance_le_iff (a b c : Nat) : distance a b ≤ c ↔ a ≤ b + c ∧ b ≤ a + c := by
  unfold distance
  split <;> omega

theorem distance_succ_succ (a b : Nat) : distance (a + 1) (b + 1) = distance a b := by
  unfold distance
  split <;> split <;> omega

/-- Flat indices grow strictly with the row, over in-band cells. -/
theorem index_with_row_lt {i j i' j' delta : Nat} (hj : j ≤ i + delta)
    (hi' : i' ≤ j' + delta) (hii' : i < i') :
    SubString.index_with i j delta < SubString.index_with i' j' delta := by
  unfold SubString.index_with
  have hexp : (i + 1) * 2 * delta = i * 2 * delta + 2 * delta := by ring
  have hmul : (i + 1) * 2 * delta ≤ i' * 2 * delta :=
    Nat.mul_le_mul_right delta (Nat.mul_le_mul_right 2 hii')
  omega

/-- Flat indices of distinct in-band cells are distinct. -/
theorem index_with_inj {i j i' j' delta : Nat}
    (hb : i ≤ j + delta ∧ j ≤ i + delta) (hb' : i' ≤ j' + delta ∧ j' ≤ i' + delta)
    (heq : SubString.index_with i j delta = SubString.index_with i' j' delta) :
    i = i' ∧ j = j' := by
  rcases Nat.lt_trichotomy i i' with hlt | rfl | hgt
  · exact absurd heq (Nat.ne_of_lt (index_with_row_lt hb.2 hb'.1 hlt))
  · refine ⟨rfl, ?_⟩
    unfold SubString.index_with at heq
    omega
  · exact absurd heq.symm (Nat.ne_of_lt (index_with_row_lt hb'.2 hb.1 hgt))

/-- In-band cells fall inside the `d1 * (2 * delta + 1)` table. -/
theorem index_with_lt_size {i j d1 delta : Nat} (hi : i < d1) (hj : j ≤ i + delta) :
    SubString.index_with i j delta < d1 * (2 * delta + 1) := by
  unfold SubString.index_with
  have hexp : d1 * (2 * delta + 1) = d1 * 2 * delta + d1 := by ring
  have hexp2 : (i + 1) * 2 * delta = i * 2 * delta + 2 * delta := by ring
  have hmul : (i + 1) * 2 * delta ≤ d1 * 2 * delta :=
    Nat.mul_le_mul_right delta (Nat.mul_le_mul_right 2 hi)
  omega

theorem sublist_cons_cons_iff {T : Type} {x y : T} {u v : List T} :
    List.Sublist (x :: u) (y :: v) ↔
      List.Sublist (x :: u) v ∨ (x = y ∧ List.Sublist u v) := by
  constructor
  · intro h
    cases h with
    | cons _ h => exact Or.inl h
    | cons₂ _ h => exact Or.inr ⟨rfl, h⟩
  · intro h
    rcases h with h | ⟨rfl, h⟩
    · exact List.Sublist.cons _ h
    · exact List.Sublist.cons₂ _ h

theorem sublist_iff_eq_of_length {T : Type} {l1 l2 : List T} (h : l1.length = l2.length) :
    List.Sublist l1 l2 ↔ l1 = l2 :=
  ⟨fun hs => hs.eq_of_length h, fun he => he ▸ List.Sublist.refl _⟩

theorem subB_true_iff_le {T : Type} [DecidableEq T] {l1 l2 : List T}
    (h : l1.length ≤ l2.length) : subB l1 l2 = true ↔ List.Sublist l1 l2 := by
  unfold subB
  rw [if_pos h]
  exact ⟨of_decide_eq_true, decide_eq_true⟩

theorem subB_true_iff_ge {T : Type} [DecidableEq T] {l1 l2 : List T}
    (h : l2.length ≤ l1.length) : subB l1 l2 = true ↔ List.Sublist l2 l1 := by
  unfold subB
  by_cases h12 : l1.length ≤ l2.length
  · rw [if_pos h12, show (decide (List.Sublist l1 l2) = true) = List.Sublist l1 l2 from decide_eq_true_eq,
      sublist_iff_eq_of_length (Nat.le_antisymm h12 h),
      sublist_iff_eq_of_length (Nat.le_antisymm h h12)]
    exact ⟨Eq.symm, Eq.symm⟩
  · rw [if_neg h12]
    exact ⟨of_decide_eq_true, decide_eq_true⟩

theorem subB_true_iff_eq {T : Type} [DecidableEq T] {l1 l2 : List T}
    (h : l1.length = l2.length) : subB l1 l2 = true ↔ l1 = l2 := by
  rw [subB_true_iff_le (Nat.le_of_eq h)]
  exact sublist_iff_eq_of_length h

theorem bool_eq_of_true_iff {a b : Bool} (h : a = true ↔ b = true) : a = b := by
  cases a <;> cases b <;> simp_all

theorem drop_eq_cons_of_get {T : Type} {l : List T} {n : Nat} {x : T}
    (hx : l.get? n = some x) : l.drop n = x :: l.drop (n + 1) := by
  obtain ⟨h, hg⟩ := List.get?_eq_some.mp hx
  rw [List.drop_eq_getElem_cons h]
  exact congrArg (fun z => z :: l.drop (n + 1)) hg

/-- The value written by the fill loop into an in-band cell equals the
intended tail-subsequence relation, provided the cells it reads (same row
to the right, and the two rows below it) already hold theirs. -/
theorem cellValue_correct {T : Type} [DecidableEq T] (s1 s2 : List T) (delta : Nat)
    {i j : Nat} (hi : i < s1.length) (hj : j < s2.length)
    (hij : distance i j ≤ delta)
    (hband : distance s1.length s2.length ≤ delta)
    (res : Array Bool)
    (hrow : ∀ j', j < j' → j' < s2.length → distance i j' ≤ delta →
      res.getD (SubString.index_with i j' delta) false = subB (s1.drop i) (s2.drop j'))
    (hprev : ∀ i' j', i < i' → i' < s1.length → j' < s2.length → distance i' j' ≤ delta →
      res.getD (SubString.index_with i' j' delta) false = subB (s1.drop i') (s2.drop j')) :
    cellValue s1 s2 s1.length s2.length delta res i j = subB (s1.drop i) (s2.drop j) := by
  obtain ⟨x, hx⟩ : ∃ x, s1.get? i = some x :=
    ⟨s1.get ⟨i, hi⟩, List.get?_eq_some.mpr ⟨hi, rfl⟩⟩
  obtain ⟨y, hy⟩ : ∃ y, s2.get? j = some y :=
    ⟨s2.get ⟨j, hj⟩, List.get?_eq_some.mpr ⟨hj, rfl⟩⟩
  have hd1 : s1.drop i = x :: s1.drop (i + 1) := drop_eq_cons_of_get hx
  have hd2 : s2.drop j = y :: s2.drop (j + 1) := drop_eq_cons_of_get hy
  have hl1 : (s1.drop i).length = s1.length - i := List.length_drop _ _
  have hl2 : (s2.drop j).length = s2.length - j := List.length_drop _ _
  have hl1' : (s1.drop (i + 1)).length = s1.length - (i + 1) := List.length_drop _ _
  have hl2' : (s2.drop (j + 1)).length = s2.length - (j + 1) := List.length_drop _ _
  have helem : elemEq s1 s2 i j = decide (x = y) := by
    unfold elemEq
    rw [hx, hy]
  rw [distance_le_iff] at hij hband
  simp only [cellValue]
  by_cases heq : s1.length - i - 1 = s2.length - j - 1
  · rw [if_pos heq]
    by_cases hz : s1.length - i - 1 = 0
    · rw [if_pos hz, helem]
      have hn1 : s1.drop (i + 1) = [] := List.drop_eq_nil_of_le (by omega)
      have hn2 : s2.drop (j + 1) = [] := List.drop_eq_nil_of_le (by omega)
      apply bool_eq_of_true_iff
      rw [subB_true_iff_eq (by rw [hl1, hl2]; omega), hd1, hd2, hn1, hn2]
      simp
    · rw [if_neg hz, helem]
      have hi' : i + 1 < s1.length := by omega
      have hj' : j + 1 < s2.length := by omega
      rw [hprev (i + 1) (j + 1) (by omega) hi' hj'
        (by rw [distance_succ_succ, distance_le_iff]; omega)]
      apply bool_eq_of_true_iff
      rw [Bool.and_eq_true, subB_true_iff_eq (by rw [hl1', hl2']; omega),
        subB_true_iff_eq (by rw [hl1, hl2]; omega), hd1, hd2]
      simp only [List.cons_eq_cons, decide_eq_true_eq]
      exact and_comm
  · rw [if_neg heq]
    by_cases hlt : s1.length - i - 1 < s2.length - j - 1
    · rw [if_pos hlt]
      have hj' : j + 1 < s2.length := by omega
      have hjb : j + 1 ≤ i + delta := by omega
      have hrw := hrow (j + 1) (by omega) hj' (by rw [distance_le_iff]; omega)
      by_cases hz : s1.length - i - 1 = 0
      · rw [if_pos hz, helem, hrw]
        have hn1 : s1.drop (i + 1) = [] := List.drop_eq_nil_of_le (by omega)
        apply bool_eq_of_true_iff
        rw [Bool.or_eq_true, subB_true_iff_le (by rw [hl1, hl2']; omega),
          subB_true_iff_le (by rw [hl1, hl2]; omega), hd1, hd2, hn1]
        simp only [List.singleton_sublist, List.mem_cons, decide_eq_true_eq]
        tauto
      · rw [if_neg hz, helem, hrw]
        have hi' : i + 1 < s1.length := by omega
        rw [hprev (i + 1) (j + 1) (by omega) hi' hj'
          (by rw [distance_succ_succ, distance_le_iff]; omega)]
        apply bool_eq_of_true_iff
        rw [Bool.or_eq_true, Bool.and_eq_true,
          subB_true_iff_le (by rw [hl1, hl2']; omega),
          subB_true_iff_le (by rw [hl1', hl2']; omega),
          subB_true_iff_le (by rw [hl1, hl2]; omega), hd1, hd2,
          sublist_cons_cons_iff]
        simp only [decide_eq_true_eq]
        tauto
    · rw [if_neg hlt]
      have hgt : s2.length - j - 1 < s1.length - i - 1 := by omega
      have hi' : i + 1 < s1.length := by omega
      have hib : i + 1 ≤ j + delta := by omega
      have hprw := hprev (i + 1) j (by omega) hi' hj (by rw [distance_le_iff]; omega)
      by_cases hz : s2.length - j - 1 = 0
      · rw [if_pos hz, helem, hprw]
        have hn2 : s2.drop (j + 1) = [] := List.drop_eq_nil_of_le (by omega)
        apply bool_eq_of_true_iff
        rw [Bool.or_eq_true, subB_true_iff_ge (by rw [hl1', hl2]; omega),
          subB_true_iff_ge (by rw [hl1, hl2]; omega), hd1, hd2, hn2]
        simp only [List.singleton_sublist, List.mem_cons, decide_eq_true_eq]
        constructor
        · rintro (h | h)
          · exact Or.inr h
          · exact Or.inl h.symm
        · rintro (h | h)
          · exact Or.inr h.symm
          · exact Or.inl h
      · rw [if_neg hz, helem, hprw]
        have hj' : j + 1 < s2.length := by omega
        rw [hprev (i + 1) (j + 1) (by omega) hi' hj'
          (by rw [distance_succ_succ, distance_le_iff]; omega)]
        apply bool_eq_of_true_iff
        rw [Bool.or_eq_true, Bool.and_eq_true,
          subB_true_iff_ge (by rw [hl1', hl2]; omega),
          subB_true_iff_ge (by rw [hl1', hl2']; omega),
          subB_true_iff_ge (by rw [hl1, hl2]; omega), hd1, hd2,
          sublist_cons_cons_iff]
        simp only [decide_eq_true_eq]
        constructor
        · rintro (h | ⟨h1, h2⟩)
          · exact Or.inl h
          · exact Or.inr ⟨h2.symm, h1⟩
        · rintro (h | ⟨h1, h2⟩)
          · exact Or.inl h
          · exact Or.inr ⟨h2, h1.symm⟩

/-- Loop invariant of the inner fill loop: after processing the remaining
`jcnt` cells of row `i`, every in-band cell of the row holds the intended
relation, and the rows below `i` are untouched. -/
theorem fillRow_correct {T : Type} [DecidableEq T] (s1 s2 : List T) (delta : Nat)
    {i : Nat} (hi : i < s1.length)
    (hband : distance s1.length s2.length ≤ delta) :
    ∀ (jcnt : Nat) (res : Array Bool),
      res.size = s1.length * (2 * delta + 1) →
      jcnt ≤ min (i + delta + 1) s2.length →
      (∀ j', jcnt ≤ j' → j' < s2.length → distance i j' ≤ delta →
        res.getD (SubString.index_with i j' delta) false = subB (s1.drop i) (s2.drop j')) →
      (∀ i' j', i < i' → i' < s1.length → j' < s2.length → distance i' j' ≤ delta →
        res.getD (SubString.index_with i' j' delta) false
          = subB (s1.drop i') (s2.drop j')) →
      (fillRow s1 s2 s1.length s2.length delta i res jcnt).size = res.size ∧
      (∀ j', j' < s2.length → distance i j' ≤ delta →
        (fillRow s1 s2 s1.length s2.length delta i res jcnt).getD
          (SubString.index_with i j' delta) false = subB (s1.drop i) (s2.drop j')) ∧
      (∀ i' j', i < i' → i' < s1.length → j' < s2.length → distance i' j' ≤ delta →
        (fillRow s1 s2 s1.length s2.length delta i res jcnt).getD
          (SubString.index_with i' j' delta) false = subB (s1.drop i') (s2.drop j')) := by
  intro jcnt
  induction jcnt with
  | zero =>
      intro res hsz hle hrow hprev
      exact ⟨rfl, fun j' h1 h2 => hrow j' (Nat.zero_le _) h1 h2,
        fun i' j' a b c d => hprev i' j' a b c d⟩
  | succ j ih =>
      intro res hsz hle hrow hprev
      by_cases hb : distance i j > delta
      · have hstep : fillRow s1 s2 s1.length s2.length delta i res (j + 1) = res := by
          unfold fillRow
          rw [if_pos hb]
        rw [hstep]
        refine ⟨rfl, ?_, hprev⟩
        intro j' hj' hbb
        rcases Nat.lt_or_ge j' (j + 1) with hlt | hge
        · exfalso
          rw [distance_le_iff] at hbb
          rw [gt_iff_lt, ← Nat.not_le, distance_le_iff] at hb
          omega
        · exact hrow j' hge hj' hbb
      · have hbb : distance i j ≤ delta := Nat.le_of_not_lt hb
        have hjlt : j < s2.length := by omega
        have hcell : cellValue s1 s2 s1.length s2.length delta res i j
            = subB (s1.drop i) (s2.drop j) :=
          cellValue_correct s1 s2 delta hi hjlt hbb hband res
            (fun j' h1 h2 h3 => hrow j' (by omega) h2 h3) hprev
        have hjb : j ≤ i + delta := by
          rw [distance_le_iff] at hbb
          omega
        have hidx : SubString.index_with i j delta < res.size := by
          rw [hsz]
          exact index_with_lt_size hi hjb
        set res' := res.setD (SubString.index_with i j delta)
          (cellValue s1 s2 s1.length s2.length delta res i j) with hres'
        have hstep : fillRow s1 s2 s1.length s2.length delta i res (j + 1)
            = fillRow s1 s2 s1.length s2.length delta i res' j := by
          conv_lhs => rw [fillRow]
          rw [if_neg hb, ← hres']
        have hsz' : res'.size = s1.length * (2 * delta + 1) := by
          rw [hres', Array.size_setD, hsz]
        have hrow' : ∀ j', j ≤ j' → j' < s2.length → distance i j' ≤ delta →
            res'.getD (SubString.index_with i j' delta) false
              = subB (s1.drop i) (s2.drop j') := by
          intro j' h1 h2 h3
          rcases Nat.eq_or_lt_of_le h1 with rfl | hlt
          · rw [hres', getD_setD_self _ _ _ hidx]
            exact hcell
          · rw [hres', getD_setD_ne]
            · exact hrow j' hlt h2 h3
            · unfold SubString.index_with
              omega
        have hprev' : ∀ i' j', i < i' → i' < s1.length → j' < s2.length →
            distance i' j' ≤ delta →
            res'.getD (SubString.index_with i' j' delta) false
              = subB (s1.drop i') (s2.drop j') := by
          intro i' j' h1 h2 h3 h4
          rw [hres', getD_setD_ne]
          · exact hprev i' j' h1 h2 h3 h4
          · refine Nat.ne_of_lt (index_with_row_lt hjb ?_ h1)
            rw [distance_le_iff] at h4
            omega
        obtain ⟨ihsz, ihrow, ihprev⟩ := ih res' hsz' (by omega) hrow' hprev'
        rw [hstep]
        exact ⟨by rw [ihsz, hres', Array.size_setD], ihrow, ihprev⟩

/-- Loop invariant of the outer fill loop: after processing the lowest
`icnt` rows, every in-band cell of every row holds the intended relation
(rows at or above `icnt` are assumed correct and are preserved). -/
theorem fillRows_correct {T : Type} [DecidableEq T] (s1 s2 : List T) (delta : Nat)
    (hband : distance s1.length s2.length ≤ delta) :
    ∀ (icnt : Nat) (res : Array Bool),
      icnt ≤ s1.length →
      res.size = s1.length * (2 * delta + 1) →
      (∀ i' j', icnt ≤ i' → i' < s1.length → j' < s2.length → distance i' j' ≤ delta →
        res.getD (SubString.index_with i' j' delta) false
          = subB (s1.drop i') (s2.drop j')) →
      ∀ i' j', i' < s1.length → j' < s2.length → distance i' j' ≤ delta →
        (fillRows s1 s2 s1.length s2.length delta res icnt).getD
          (SubString.index_with i' j' delta) false = subB (s1.drop i') (s2.drop j') := by
  intro icnt
  induction icnt with
  | zero =>
      intro res hle hsz hprev i' j' h1 h2 h3
      exact hprev i' j' (Nat.zero_le _) h1 h2 h3
  | succ i ih =>
      intro res hle hsz hprev i' j' h1 h2 h3
      have hstep : fillRows s1 s2 s1.length s2.length delta res (i + 1)
          = fillRows s1 s2 s1.length s2.length delta
              (fillRow s1 s2 s1.length s2.length delta i res
                (min (i + delta + 1) s2.length)) i := by
        conv_lhs => rw [fillRows]
      obtain ⟨hsz2, hrow2, hprev2⟩ :=
        fillRow_correct s1 s2 delta (by omega) hband (min (i + delta + 1) s2.length) res
          hsz (Nat.le_refl _)
          (fun j' hj1 hj2 hj3 => by
            exfalso
            rw [distance_le_iff] at hj3
            omega)
          (fun i' j' a b c d => hprev i' j' (by omega) b c d)
      rw [hstep]
      refine ih _ (by omega) (by rw [hsz2, hsz]) ?_ i' j' h1 h2 h3
      intro i'' j'' a b c d
      rcases Nat.eq_or_lt_of_le a with rfl | hlt
      · exact hrow2 j'' c d
      · exact hprev2 i'' j'' hlt b c d

/-- After a successful `SubString.compute`, the stored table holds the
tail-subsequence relation at every in-band cell. -/
theorem compute_table_correct {T : Type} [DecidableEq T] {s1 s2 : List T} {delta : Nat}
    {ss : SubString} (hok : SubString.compute s1 s2 delta = .ok ss) :
    ss.d1 = s1.length ∧ ss.d2 = s2.length ∧ ss.delta = delta ∧
    ∀ i j, i < s1.length → j < s2.length → distance i j ≤ delta →
      ss.table.getD (SubString.index_with i j delta) false
        = subB (s1.drop i) (s2.drop j) := by
  simp only [SubString.compute] at hok
  by_cases hb : distance s1.length s2.length > delta
  · rw [if_pos hb] at hok
    cases hok
  · rw [if_neg hb] at hok
    cases hok
    refine ⟨rfl, rfl, rfl, ?_⟩
    intro i j h1 h2 h3
    exact fillRows_correct s1 s2 delta (Nat.le_of_not_lt hb) s1.length
      (Array.mkArray (s1.length * (2 * delta + 1)) false) (Nat.le_refl _) (by simp)
      (fun i' j' a b c d => absurd b (Nat.not_lt.mpr a)) i j h1 h2 h3

/-- A node freshly appended as `Split a b` accepts exactly the union of
the languages of `a` and `b` (both inside the original closed arena). -/
theorem accepts_fresh_split {T : Type} {nodes : List (Node T)} (hinv : ArenaInv nodes)
    {a b : Nat} (ha : a < nodes.length) (hb : b < nodes.length) {m mn : Nat}
    {w : List T} :
    Accepts (nodes ++ [Node.mk m mn (NodeType.Split a b)]) nodes.length w ↔
      Accepts nodes a w ∨ Accepts nodes b w := by
  constructor
  · intro hacc
    cases hacc with
    | endNode h he =>
        rw [get?_concat] at h
        cases h
        cases he
    | elem h he _ =>
        rw [get?_concat] at h
        cases h
        cases he
    | splitLeft h he hc =>
        rw [get?_concat] at h
        cases h
        cases he
        exact Or.inl (accepts_of_append hinv hc ha)
    | splitRight h he hc =>
        rw [get?_concat] at h
        cases h
        cases he
        exact Or.inr (accepts_of_append hinv hc hb)
  · intro hacc
    cases hacc with
    | inl h => exact Accepts.splitLeft (get?_concat _ _) rfl (accepts_append h)
    | inr h => exact Accepts.splitRight (get?_concat _ _) rfl (accepts_append h)

/-- If the node at `ir` is a `Split` having `io` among its children, then
everything `io` accepts, `ir` accepts as well. -/
theorem accepts_of_split_child {T : Type} {nodes : List (Node T)} {ir io : Nat}
    {nr : Node T} (hr : nodes.get? ir = some nr)
    (hch : nr.is_split_with_child io = true) {w : List T}
    (hacc : Accepts nodes io w) : Accepts nodes ir w := by
  obtain ⟨m, mn, inner⟩ := nr
  cases inner with
  | Empty => simp [Node.is_split_with_child] at hch
  | End s => simp [Node.is_split_with_child] at hch
  | Element v c => simp [Node.is_split_with_child] at hch
  | Split c1 c2 =>
      simp [Node.is_split_with_child] at hch
      cases hch with
      | inl hc =>
          refine Accepts.splitLeft hr rfl ?_
          rw [hc]
          exact hacc
      | inr hc =>
          refine Accepts.splitRight hr rfl ?_
          rw [hc]
          exact hacc

/-!
Claim theorems.
-/

/-- C6: every node of every DAG emitted by either builder satisfies
`min_length ≤ max_length` and exactly the section 3.3 variant
recurrences: `Empty` has both bounds 0, `End s` has both bounds `|s|`,
`Element(_, c)` adds one to the child's bounds, and `Split` takes the
max/min over its two children. -/
theorem c6_length_coherence {T : Type} [DecidableEq T] :
    (∀ (len : Nat) (s1 s2 : List T) (d : Dag T), xmcs2 len s1 s2 = Except.ok d →
      dagCoherentB d = true) ∧
    (∀ (len : Nat) (seqs : List (List T)) (d : Dag T), xmcsk len seqs = Except.ok d →
      dagCoherentB d = true) :=
  ⟨fun _ _ _ _ h => dagCoherentB_of_wf (xmcs2_inv h),
   fun _ _ _ h => dagCoherentB_of_wf (xmcsk_inv h)⟩

/-- C6 witness: coherence checked on concrete outputs of both builders. -/
theorem c6_witness :
    dagCoherentB (okDag (xmcs2 3 [0,1,2,3] [(0:Nat),2,1,3])) = true ∧
    dagCoherentB (okDag (xmcsk 2 [[0,1,2],[0,2,1],[(0:Nat),1,2]])) = true :=
  ⟨c6_length_coherence.1 3 [0,1,2,3] [(0:Nat),2,1,3]
     (okDag (xmcs2 3 [0,1,2,3] [(0:Nat),2,1,3])) (by decide),
   c6_length_coherence.2 2 [[0,1,2],[0,2,1],[(0:Nat),1,2]]
     (okDag (xmcsk 2 [[0,1,2],[0,2,1],[(0:Nat),1,2]])) (by decide)⟩

/-- C7: for every DAG produced by the builders, `extract_lcs` returns
`none` exactly when the root's `max_length` is 0, and otherwise a
sequence whose length equals the root's `max_length` (the definition
descends into the child with the strictly larger `max_length`, ties to
the second child). -/
theorem c7_extract_lcs {T : Type} [DecidableEq T] :
    (∀ (len : Nat) (s1 s2 : List T) (d : Dag T), xmcs2 len s1 s2 = Except.ok d →
      (d.extract_lcs = none ↔ rootMaxLen d = 0) ∧
      ∀ w, d.extract_lcs = some w → w.length = rootMaxLen d) ∧
    (∀ (len : Nat) (seqs : List (List T)) (d : Dag T), xmcsk len seqs = Except.ok d →
      (d.extract_lcs = none ↔ rootMaxLen d = 0) ∧
      ∀ w, d.extract_lcs = some w → w.length = rootMaxLen d) :=
  ⟨fun _ _ _ _ h => extract_lcs_spec (xmcs2_inv h),
   fun _ _ _ h => extract_lcs_spec (xmcsk_inv h)⟩

/-- C7 witness: extraction on concrete outputs of both builders yields
sequences of exactly the root bound's length. -/
theorem c7_witness :
    (okDag (xmcs2 3 [0,1,2,3] [(0:Nat),2,1,3])).extract_lcs = some [0, 1, 3]
    ∧ ([0, 1, 3] : List Nat).length = rootMaxLen (okDag (xmcs2 3 [0,1,2,3] [(0:Nat),2,1,3]))
    ∧ ([0, 1] : List Nat).length = rootMaxLen (okDag (xmcsk 2 [[0,1,2],[0,2,1],[(0:Nat),1,2]])) :=
  ⟨by decide,
   (c7_extract_lcs.1 3 [0,1,2,3] [(0:Nat),2,1,3]
     (okDag (xmcs2 3 [0,1,2,3] [(0:Nat),2,1,3])) (by decide)).2 [0, 1, 3] (by decide),
   (c7_extract_lcs.2 2 [[0,1,2],[0,2,1],[(0:Nat),1,2]]
     (okDag (xmcsk 2 [[0,1,2],[0,2,1],[(0:Nat),1,2]])) (by decide)).2 [0, 1] (by decide)⟩

/-- C9: termination of both recursions.  The pairwise `compute` recursion
strictly decreases the pair of suffix lengths, so fuel exceeding
`|s1| + |s2|` can never run out; the k-ary `compute` recursion decreases
`(|seq|, current)` lexicographically because every child index in the
base graph is smaller than its parent's index (part of `ArenaInv`), so
fuel exceeding `|seq| + current` can never run out; consequently `xmcsk`
never exhausts fuel on any input. -/
theorem c9_termination {T : Type} [DecidableEq T] :
    (∀ (substr : SubString) (b : Builder2 T) (fuel len : Nat) (s1 s2 : List T),
      ArenaInv b.nodes → MemoValid b.memo b.nodes →
      s1.length + s2.length + 1 ≤ fuel →
      Builder2.compute substr b fuel len s1 s2 ≠ Except.error BuildError.outOfFuel) ∧
    (∀ (b : KBuilder T) (fuel len current : Nat) (seq : List T),
      ArenaInv b.nodes → MemoValid b.memo b.nodes → ArenaInv b.base_graph →
      current < b.base_graph.length → seq.length + current + 1 ≤ fuel →
      KBuilder.compute b fuel len current seq ≠ Except.error BuildError.outOfFuel) ∧
    (∀ (len : Nat) (seqs : List (List T)),
      xmcsk len seqs ≠ Except.error BuildError.outOfFuel) := by
  refine ⟨?_, ?_, ?_⟩
  · intro substr b fuel len s1 s2 hinv hmv hf
    obtain ⟨b', o, heq, _⟩ := builder2_compute_post substr fuel b len s1 s2 hinv hmv hf
    rw [heq]
    simp
  · intro b fuel len current seq hinv hmv hbase hcur hf
    obtain ⟨b', o, heq, _⟩ := kbuilder_compute_post fuel b len current seq hinv hmv hbase
      hcur hf
    rw [heq]
    simp
  · intro len seqs
    obtain ⟨d, hd, _⟩ := xmcsk_wf len seqs
    rw [hd]
    simp

/-- C9 witness: the non-exhaustion statements instantiated at concrete
states and inputs. -/
theorem c9_witness :
    Builder2.compute (SubString.mk 1 1 0 (Array.mkArray 1 false))
      (Builder2.mk ([] : List (Node Nat)) []) 3 1 [0] [0]
      ≠ Except.error BuildError.outOfFuel
    ∧ KBuilder.compute (KBuilder.mk ([] : List (Node Nat)) [] [emptyNode Nat]) 2 1 0 [0]
      ≠ Except.error BuildError.outOfFuel
    ∧ xmcsk 1 [[0], [(0:Nat), 1]] ≠ Except.error BuildError.outOfFuel :=
  ⟨c9_termination.1 (SubString.mk 1 1 0 (Array.mkArray 1 false))
     (Builder2.mk [] []) 3 1 [0] [0] arenaInv_nil memoValid_nil (by decide),
   c9_termination.2.1 (KBuilder.mk [] [] [emptyNode Nat]) 2 1 0 [0]
     arenaInv_nil memoValid_nil arenaInv_single_empty (by decide) (by decide),
   c9_termination.2.2 1 [[0], [(0:Nat), 1]]⟩

/-- C10: for every DAG value, `to_set` never returns a value: it is
declared but unimplemented (`todo!()`) and panics unconditionally on
every input. -/
theorem c10_to_set_unimplemented {T : Type} (d : Dag T) :
    d.to_set = Except.error BuildError.panic ∧ ∀ s, d.to_set ≠ Except.ok s := by
  refine ⟨rfl, ?_⟩
  intro s h
  cases h

/-- C1 fails on the code: `xmcsk 0 [[1,0,2,2], [2,1,0,0], [1,2]]` returns
a DAG that accepts the word `[1,2]` along a full path from start to an
`End` leaf, yet `[1,2]` is not a subsequence of the input `[2,1,0,0]`
(the k-ary builder's memoization, keyed on `max_length` instead of node
identity, reuses a result computed for a different node). -/
theorem c1_soundness_failure :
    xmcsk 0 [[1,0,2,2], [2,1,0,0], [(1:Nat),2]]
      = Except.ok (okDag (xmcsk 0 [[1,0,2,2], [2,1,0,0], [(1:Nat),2]]))
    ∧ Accepts (okDag (xmcsk 0 [[1,0,2,2], [2,1,0,0], [(1:Nat),2]])).nodes
        (okDag (xmcsk 0 [[1,0,2,2], [2,1,0,0], [(1:Nat),2]])).start [1, 2]
    ∧ ¬ List.Sublist [1, 2] [2, 1, 0, 0] := by
  refine ⟨rfl, @accepts_of_mem_acceptedWords _ _ 19 _ _ ?_, by decide⟩
  decide

/-- C4 fails on the code: `[0]` is a common subsequence of `[0,1]`,
`[1,0]`, `[0]` of length `1 ≥ ℓ = 1`, yet `xmcsk 1` on these inputs
returns the empty DAG, whose root `max_length` is `0` rather than `≥ 1`
(same memoization aliasing).  Moreover `xmcsk ℓ [s]` with `|s| < ℓ`
returns the singleton DAG whose root `max_length` is `|s|`, not `0`. -/
theorem c4_length_bound_failure :
    xmcsk 1 [[0,1], [1,0], [(0:Nat)]] = Except.ok (Dag.empty Nat 1)
    ∧ ((Dag.empty Nat 1).nodes.get? (Dag.empty Nat 1).start).map Node.max_length = some 0
    ∧ (List.Sublist [0] [0,1] ∧ List.Sublist [0] [1,0] ∧ List.Sublist [0] [(0:Nat)] ∧ 1 ≤ ([(0:Nat)] : List Nat).length)
    ∧ xmcsk 3 [[(0:Nat), 1]]
        = Except.ok (Dag.singleton 3 [0, 1])
    ∧ ((Dag.singleton 3 [(0:Nat), 1]).nodes.get? (Dag.singleton 3 [(0:Nat), 1]).start).map
        Node.max_length = some 2 := by
  refine ⟨by decide, by decide, by decide, by decide, by decide⟩

/-- C5 fails on the code: the DAG for `ℓ = 1`, sequences
`[[0],[0,1],[1,0]]` accepts `[0]`, but after permuting the inputs to
`[[0,1],[1,0],[0]]` the resulting DAG accepts nothing (it is the empty
DAG), so the accepted language is not permutation invariant. -/
theorem c5_permutation_failure :
    xmcsk 1 [[0], [0,1], [(1:Nat),0]]
      = Except.ok (okDag (xmcsk 1 [[0], [0,1], [(1:Nat),0]]))
    ∧ Accepts (okDag (xmcsk 1 [[0], [0,1], [(1:Nat),0]])).nodes
        (okDag (xmcsk 1 [[0], [0,1], [(1:Nat),0]])).start [0]
    ∧ xmcsk 1 [[0,1], [1,0], [(0:Nat)]] = Except.ok (Dag.empty Nat 1)
    ∧ ¬ Accepts (Dag.empty Nat 1).nodes (Dag.empty Nat 1).start [0] := by
  refine ⟨rfl, @accepts_of_mem_acceptedWords _ _ 2 _ _ ?_, by decide,
    @not_accepts_of_empty _ _ _ (emptyNode Nat) (by decide) rfl _⟩
  decide

/-- C8: prefix-sharing collapse is correctness-preserving, in both of its
branches.  When both candidate children exist and are distinct: if the
node at `i1` is already a `Split` having `i2` as one of its children,
`compute_split_node` reuses `i1` (recording only a memo entry); otherwise,
if the node at `i2` is a `Split` having `i1` as one of its children, it
reuses `i2`.  In each case the reused node accepts exactly the words the
fresh `Split(i1, i2)` node would have accepted. -/
theorem c8_prefix_collapse {T : Type} (b : KBuilder T) (i1 i2 : Nat)
    (pos : Nat × Nat × Nat) (n1 n2 : Node T)
    (hinv : ArenaInv b.nodes)
    (h1 : b.nodes.get? i1 = some n1) (h2 : b.nodes.get? i2 = some n2)
    (hne : i1 ≠ i2) :
    (n1.is_split_with_child i2 = true →
      b.compute_split_node (some i1) (some i2) pos =
        (KBuilder.mk b.nodes ((pos, some i1) :: b.memo) b.base_graph, some i1)
      ∧ ∀ w, Accepts b.nodes i1 w ↔
          Accepts (b.nodes ++ [Node.mk (max n1.max_length n2.max_length)
            (min n1.min_length n2.min_length) (NodeType.Split i1 i2)])
            b.nodes.length w)
    ∧ (n1.is_split_with_child i2 = false → n2.is_split_with_child i1 = true →
      b.compute_split_node (some i1) (some i2) pos =
        (KBuilder.mk b.nodes ((pos, some i2) :: b.memo) b.base_graph, some i2)
      ∧ ∀ w, Accepts b.nodes i2 w ↔
          Accepts (b.nodes ++ [Node.mk (max n1.max_length n2.max_length)
            (min n1.min_length n2.min_length) (NodeType.Split i1 i2)])
            b.nodes.length w) := by
  have hl1 : i1 < b.nodes.length := lt_length_of_get h1
  have hl2 : i2 < b.nodes.length := lt_length_of_get h2
  constructor
  · intro hsp
    constructor
    · simp only [KBuilder.compute_split_node, h1, h2, Option.getD_some, if_neg hne,
        hsp, eq_self_iff_true, if_true, KBuilder.points_to_node]
    · intro w
      rw [accepts_fresh_split hinv hl1 hl2]
      constructor
      · exact Or.inl
      · rintro (h | h)
        · exact h
        · exact accepts_of_split_child h1 hsp h
  · intro hspF hsp2
    constructor
    · simp only [KBuilder.compute_split_node, h1, h2, Option.getD_some, if_neg hne,
        hspF, hsp2, Bool.false_eq_true, if_false, eq_self_iff_true, if_true,
        KBuilder.points_to_node]
    · intro w
      rw [accepts_fresh_split hinv hl1 hl2]
      constructor
      · exact Or.inr
      · rintro (h | h)
        · exact accepts_of_split_child h2 hsp2 h
        · exact h

/-- C8 witness: both collapse branches in a concrete three-node arena
(`End []`, `End [5]`, `Split 0 1`): the pair (2, 1) reuses index 2 via the
first branch, and the pair (1, 2) reuses index 2 via the symmetric
branch. -/
theorem c8_witness :
    (KBuilder.mk [Node.mk 0 0 (NodeType.End ([] : List Nat)),
        Node.mk 1 1 (NodeType.End [5]),
        Node.mk 1 0 (NodeType.Split 0 1)] [] []).compute_split_node
        (some 2) (some 1) (0, 0, 0) =
      (KBuilder.mk [Node.mk 0 0 (NodeType.End ([] : List Nat)),
        Node.mk 1 1 (NodeType.End [5]),
        Node.mk 1 0 (NodeType.Split 0 1)] [((0, 0, 0), some 2)] [], some 2)
    ∧ (Accepts [Node.mk 0 0 (NodeType.End ([] : List Nat)),
        Node.mk 1 1 (NodeType.End [5]),
        Node.mk 1 0 (NodeType.Split 0 1)] 2 [5] ↔
       Accepts ([Node.mk 0 0 (NodeType.End ([] : List Nat)),
        Node.mk 1 1 (NodeType.End [5]),
        Node.mk 1 0 (NodeType.Split 0 1)] ++
          [Node.mk (max 1 1) (min 0 1) (NodeType.Split 2 1)]) 3 [5])
    ∧ (KBuilder.mk [Node.mk 0 0 (NodeType.End ([] : List Nat)),
        Node.mk 1 1 (NodeType.End [5]),
        Node.mk 1 0 (NodeType.Split 0 1)] [] []).compute_split_node
        (some 1) (some 2) (0, 0, 0) =
      (KBuilder.mk [Node.mk 0 0 (NodeType.End ([] : List Nat)),
        Node.mk 1 1 (NodeType.End [5]),
        Node.mk 1 0 (NodeType.Split 0 1)] [((0, 0, 0), some 2)] [], some 2)
    ∧ (Accepts [Node.mk 0 0 (NodeType.End ([] : List Nat)),
        Node.mk 1 1 (NodeType.End [5]),
        Node.mk 1 0 (NodeType.Split 0 1)] 2 [5] ↔
       Accepts ([Node.mk 0 0 (NodeType.End ([] : List Nat)),
        Node.mk 1 1 (NodeType.End [5]),
        Node.mk 1 0 (NodeType.Split 0 1)] ++
          [Node.mk (max 1 1) (min 1 0) (NodeType.Split 1 2)]) 3 [5]) := by
  have harena : ArenaInv [Node.mk 0 0 (NodeType.End ([] : List Nat)),
      Node.mk 1 1 (NodeType.End [5]), Node.mk 1 0 (NodeType.Split 0 1)] := by
    intro i n h
    match i with
    | 0 =>
        cases h
        exact ⟨rfl, rfl⟩
    | 1 =>
        cases h
        exact ⟨rfl, rfl⟩
    | 2 =>
        cases h
        exact ⟨by decide, by decide, Node.mk 0 0 (NodeType.End ([] : List Nat)),
          Node.mk 1 1 (NodeType.End [5]), rfl, rfl, rfl, rfl⟩
    | (k + 3) => cases h
  have hA := (c8_prefix_collapse
    (KBuilder.mk [Node.mk 0 0 (NodeType.End ([] : List Nat)),
      Node.mk 1 1 (NodeType.End [5]),
      Node.mk 1 0 (NodeType.Split 0 1)] [] []) 2 1 (0, 0, 0)
    (Node.mk 1 0 (NodeType.Split 0 1)) (Node.mk 1 1 (NodeType.End [5]))
    harena rfl rfl (by decide)).1 (by decide)
  have hB := (c8_prefix_collapse
    (KBuilder.mk [Node.mk 0 0 (NodeType.End ([] : List Nat)),
      Node.mk 1 1 (NodeType.End [5]),
      Node.mk 1 0 (NodeType.Split 0 1)] [] []) 1 2 (0, 0, 0)
    (Node.mk 1 1 (NodeType.End [5])) (Node.mk 1 0 (NodeType.Split 0 1))
    harena rfl rfl (by decide)).2 (by decide) (by decide)
  exact ⟨hA.1, hA.2 [5], hB.1, hB.2 [5]⟩

/-- C2: oracle correctness.  For every successful `SubString::new(s1, s2,
delta)` (so `||s1|-|s2|| <= delta`) and all indices `i <= |s1|`, `j <= |s2|`
with `|i-j| <= delta`, `is_substring_at i j` is true iff the shorter of the
residuals `s1[i..]`, `s2[j..]` is a subsequence of the longer (equality when
the residual lengths agree). -/
theorem c2_oracle_correct {T : Type} [DecidableEq T] {s1 s2 : List T} {delta : Nat}
    {ss : SubString} (hok : SubString.compute s1 s2 delta = .ok ss)
    {i j : Nat} (hi : i ≤ s1.length) (hj : j ≤ s2.length)
    (hd : distance i j ≤ delta) :
    ss.is_substring_at i j = true ↔
      ((s1.length - i < s2.length - j → List.Sublist (s1.drop i) (s2.drop j)) ∧
       (s2.length - j < s1.length - i → List.Sublist (s2.drop j) (s1.drop i)) ∧
       (s1.length - i = s2.length - j → s1.drop i = s2.drop j)) := by
  obtain ⟨hd1, hd2, hdel, htab⟩ := compute_table_correct hok
  unfold SubString.is_substring_at
  rw [hd1, hd2, hdel]
  by_cases hedge : i = s1.length ∨ j = s2.length
  · rw [if_pos hedge]
    refine iff_of_true rfl ?_
    rcases hedge with h | h
    · subst h
      refine ⟨?_, ?_, ?_⟩
      · intro _
        rw [List.drop_length]
        exact List.nil_sublist _
      · intro hlt
        exact absurd hlt (by omega)
      · intro heq
        have hj2 : j = s2.length := by omega
        rw [List.drop_length, hj2, List.drop_length]
    · subst h
      refine ⟨?_, ?_, ?_⟩
      · intro hlt
        exact absurd hlt (by omega)
      · intro _
        rw [List.drop_length]
        exact List.nil_sublist _
      · intro heq
        have hi2 : i = s1.length := by omega
        rw [List.drop_length, hi2, List.drop_length]
  · rw [if_neg hedge]
    push_neg at hedge
    have hi' : i < s1.length := by omega
    have hj' : j < s2.length := by omega
    rw [htab i j hi' hj' hd]
    have hl1 : (s1.drop i).length = s1.length - i := List.length_drop _ _
    have hl2 : (s2.drop j).length = s2.length - j := List.length_drop _ _
    rcases Nat.lt_trichotomy (s1.length - i) (s2.length - j) with hlt | heq | hgt
    · rw [subB_true_iff_le (by rw [hl1, hl2]; omega)]
      constructor
      · intro hs
        exact ⟨fun _ => hs, fun h => absurd h (by omega), fun h => absurd h (by omega)⟩
      · intro h
        exact h.1 hlt
    · rw [subB_true_iff_eq (by rw [hl1, hl2]; omega)]
      constructor
      · intro hs
        exact ⟨fun h => absurd h (by omega), fun h => absurd h (by omega), fun _ => hs⟩
      · intro h
        exact h.2.2 heq
    · rw [subB_true_iff_ge (by rw [hl1, hl2]; omega)]
      constructor
      · intro hs
        exact ⟨fun h => absurd h (by omega), fun _ => hs, fun h => absurd h (by omega)⟩
      · intro h
        exact h.2.1 hgt

/-- C2 witness: the oracle statement at the documentation example
`SubString::new(b"CABC", b"DBABDCD", 3)`, cell `(1, 2)` (letters as
numbers): "ABC" is a subsequence of "ABDCD". -/
theorem c2_witness :
    (okSubString (SubString.compute [(2:Nat), 0, 1, 2] [3, 1, 0, 1, 3, 2, 3] 3)).is_substring_at
        1 2 = true ↔
      ((([(2:Nat), 0, 1, 2] : List Nat).length - 1
          < ([(3:Nat), 1, 0, 1, 3, 2, 3] : List Nat).length - 2 →
        List.Sublist (([(2:Nat), 0, 1, 2] : List Nat).drop 1)
          (([(3:Nat), 1, 0, 1, 3, 2, 3] : List Nat).drop 2)) ∧
       (([(3:Nat), 1, 0, 1, 3, 2, 3] : List Nat).length - 2
          < ([(2:Nat), 0, 1, 2] : List Nat).length - 1 →
        List.Sublist (([(3:Nat), 1, 0, 1, 3, 2, 3] : List Nat).drop 2)
          (([(2:Nat), 0, 1, 2] : List Nat).drop 1)) ∧
       (([(2:Nat), 0, 1, 2] : List Nat).length - 1
          = ([(3:Nat), 1, 0, 1, 3, 2, 3] : List Nat).length - 2 →
        ([(2:Nat), 0, 1, 2] : List Nat).drop 1
          = ([(3:Nat), 1, 0, 1, 3, 2, 3] : List Nat).drop 2)) :=
  @c2_oracle_correct Nat _ [2, 0, 1, 2] [3, 1, 0, 1, 3, 2, 3] 3
    (okSubString (SubString.compute [(2:Nat), 0, 1, 2] [3, 1, 0, 1, 3, 2, 3] 3))
    (by decide) 1 2 (by decide) (by decide) (by decide)
